import Mathlib

/-!
# gohll: a HyperLogLog++ cardinality estimator

A shallow embedding of `gohll.go` and the properties of its specification.

Conventions of the embedding.

* Go's `uint64`, `uint`, `uint8` and `byte` values are natural numbers; every
  operation that can wrap in Go is written with an explicit `%`.
* `float64` is a type parameter `F` carrying the field operations and the order
  (`LinearOrderedField F`); the definitions are executable at `F := ℚ` and
  theorems about the real-valued formulas are stated at `F := ℝ`.
* The functions `gohll.go` calls but does not define (`SliceUint64`,
  `LeadingBitUint64`, `EncodeHash`, `DecodeHash`, the `SparseList` type,
  `LinearCounting`) are modelled from the specification, and say so.  The
  bias and threshold tables and `math.Log` are parameters (`NumEnv`), and so is
  the external 128-bit hash `mmh3.Hash128`.
* An index out of range panics in Go; the functions that index the register
  array return `Option`, with `none` for the panic.
-/

namespace Gohll

/-! ## Machine arithmetic -/

/-- Subtraction of two `uint8` values, wrapping as in Go. -/
def u8sub (a b : Nat) : Nat := (a % 256 + 256 - b % 256) % 256

/-- Left shift of a `uint64` by a `uint8` count, the bits shifted out being lost. -/
def shl64 (x s : Nat) : Nat := (x * 2 ^ s) % 2 ^ 64

/-- Conversion `int(x)` of a `uint` to the 64-bit signed `int`. -/
def toInt (x : Nat) : Int :=
  if x % 2 ^ 64 < 2 ^ 63 then ((x % 2 ^ 64 : Nat) : Int) else ((x % 2 ^ 64 : Nat) : Int) - 2 ^ 64

/-! ## Bit and hash encoding (`SliceUint64`, `LeadingBitUint64`, `EncodeHash`, `DecodeHash`) -/

/-- Modelled from the spec: `SliceUint64` is not in `gohll.go`.  "Extracts the
inclusive bit range `[lowBit, highBit]` of a 64-bit word as an unsigned
integer, bit 63 being most significant." -/
def SliceUint64 (N start stop : Nat) : Nat :=
  ((N % 2 ^ 64) % 2 ^ (start + 1)) / 2 ^ stop

/-- Number of zero bits of `w` met when reading the bits `n-1, n-2, ..., 0`
downwards, before the first bit that is set. -/
def leadingZeros : Nat → Nat → Nat
  | 0, _ => 0
  | n + 1, w => if w.testBit n then 0 else 1 + leadingZeros n w

/-- Modelled from the spec: `LeadingBitUint64` is not in `gohll.go`.  "Returns
`1 + (count of leading zero bits in w)`; returns the sentinel `64` when
`w == 0`." -/
def LeadingBitUint64 (w : Nat) : Nat :=
  if w % 2 ^ 64 = 0 then 64 else 1 + leadingZeros 64 (w % 2 ^ 64)

/-- Modelled from the spec: the sparse entry type is not in `gohll.go`.  The
spec fixes what an entry packs and not the bit layout: "a bucket index
computed at the finer 25-bit precision and its rank, plus [...] whether the
extra `25-p` low bits used to refine the index were all zero".  The entry is
kept as these three fields. -/
structure SparseEntry where
  index25 : Nat
  rank25 : Nat
  lowZero : Bool
deriving DecidableEq, Repr

/-- Modelled from the spec: `EncodeHash` is not in `gohll.go`.  "Computes the
bucket index at 25-bit precision and its rank, and records (as part of the
entry) whether the `25-p` bits strictly between the `p`-bit precision and the
25-bit precision were all zero."  Index and rank are taken at precision 25 the
way `addNormal` takes them at precision `p`. -/
def EncodeHash (hash p : Nat) : SparseEntry :=
  { index25 := SliceUint64 hash 63 39
    rank25 := LeadingBitUint64 (shl64 (SliceUint64 hash 38 0) 25)
    lowZero := SliceUint64 hash (u8sub 63 p) 39 == 0 }

/-- Modelled from the spec: `DecodeHash` is not in `gohll.go`.  "Inverts the
encoding to the `p`-bit precision index and rank used by dense promotion",
"down-sampling the 25-bit index/rank to `p` bits".  The index is the top `p`
bits of the 25-bit index.  When the `25-p` refining bits were all zero the run
of zeros that starts at bit `64-p` runs through them into the low 39 bits, so
the rank is the stored rank plus `25-p`; a stored sentinel (all low bits zero)
stays the sentinel.  Otherwise the run ends inside the refining bits and the
rank is read off them.  The rank is a `uint8`. -/
def DecodeHash (e : SparseEntry) (p : Nat) : Nat × Nat :=
  let index := (e.index25 % 2 ^ 25) / 2 ^ (25 - p)
  let rank :=
    if e.lowZero then
      if e.rank25 = 64 then 64 else e.rank25 + (25 - p)
    else
      LeadingBitUint64 (shl64 (e.index25 % 2 ^ (25 - p)) (39 + p))
  (index, rank % 256)

/-! ## Sparse container (`SparseList`) -/

/-- Modelled from the spec: the `SparseList` type is not in `gohll.go`.  A
sequence of entries with a configured capacity. -/
structure SparseList where
  Data : List SparseEntry
  P : Nat
  MaxSize : Int
deriving DecidableEq, Repr

namespace SparseList

/-- Modelled from the spec: "current number of distinct bucket indices held".
`gohll.go` calls `Len` on the merged container only, whose entries have
distinct indices, so it is the length of the sequence. -/
def Len (sl : SparseList) : Nat := sl.Data.length

/-- Modelled from the spec: "true once length reaches capacity", the length
being the "element count" that `Add` compares with the capacity: in the write
buffer, which "accepts unsorted appends", an entry appended twice counts
twice. -/
def Full (sl : SparseList) : Bool := decide (sl.MaxSize ≤ (sl.Len : Int))

/-- Modelled from the spec: "the write buffer accepts unsorted appends up to
its own smaller capacity".  `gohll.go` calls `Add` on the write buffer only; the
append neither sorts nor removes an entry of a bucket that is already there. -/
def Add (sl : SparseList) (k : SparseEntry) : SparseList :=
  { sl with Data := sl.Data ++ [k] }

/-- Modelled from the spec: "empties the container, retaining its capacity
limit". -/
def Clear (sl : SparseList) : SparseList := { sl with Data := [] }

/-- Insertion of one entry into a sequence sorted by bucket index: "for entries
sharing the same bucket index, keeps the one with the larger rank". -/
def insertEntry (e : SparseEntry) : List SparseEntry → List SparseEntry
  | [] => [e]
  | x :: xs =>
    if e.index25 < x.index25 then e :: x :: xs
    else if e.index25 = x.index25 then (if x.rank25 < e.rank25 then e else x) :: xs
    else x :: insertEntry e xs

/-- Modelled from the spec: "combines two containers; for entries sharing the
same bucket index, keeps the one with the larger rank; result remains sorted
and deduplicated".  The argument is read and not changed: the spec has `Clear`
as an operation of its own, and `gohll.go` never calls it on the write buffer.
Returns the merged container and the buffer as it was. -/
def Merge (sl tmp : SparseList) : SparseList × SparseList :=
  ({ sl with Data := tmp.Data.foldl (fun acc e => insertEntry e acc) sl.Data }, tmp)

end SparseList

/-- Modelled from the spec: `NewSparseList` is not in `gohll.go`.  An empty
container of the given capacity. -/
def NewSparseList (p : Nat) (capacity : Int) : SparseList :=
  { Data := [], P := p, MaxSize := capacity }

/-! ## The estimator -/

/-- The representation flag `SPARSE`. -/
def SPARSE : Nat := 0

/-- The representation flag `NORMAL`. -/
def NORMAL : Nat := 1

/-- The errors of the package. -/
inductive Error where
  | InvalidPError
deriving DecidableEq, Repr

/-- The default hasher `MMH3Hash`, over the digest `hashBytes` that the external
`mmh3.Hash128` returns: `hash |= uint64(value) << uint(i*8)` for every byte. -/
def foldDigest (hashBytes : List Nat) : Nat :=
  (hashBytes.enum.foldl (fun hash iv => hash ||| shl64 (iv.2 % 256) (iv.1 * 8)) 0)

/-- The function `MMH3Hash`; `hash128` stands for the external `mmh3.Hash128`. -/
def MMH3Hash (hash128 : String → List Nat) (value : String) : Nat :=
  foldDigest (hash128 value)

/-- The struct `HLL`. -/
structure HLL (F : Type) where
  P : Nat
  Hasher : String → Nat
  m1 : Nat
  m2 : Nat
  alpha : F
  format : Nat
  tempSet : SparseList
  sparseList : SparseList
  MaxSparseSetSize : Int
  registers : List Nat

section Estimator

variable {F : Type}

/-- The function `NewHLL`. -/
def NewHLL [LinearOrderedField F] (hash128 : String → List Nat) (p : Nat)
    (maxSparseSetSize : Int) : Except Error (HLL F) :=
  if p < 4 ∨ p > 25 then .error Error.InvalidPError
  else
    let m1 : Nat := (2 ^ p) % 2 ^ 64
    let m2 : Nat := (2 ^ 25) % 2 ^ 64
    let alpha : F :=
      if m1 = 16 then 0.673
      else if m1 = 32 then 0.697
      else if m1 = 64 then 0.709
      else 0.7213 / (1 + 1.079 / (m1 : F))
    .ok
      { P := p
        MaxSparseSetSize := maxSparseSetSize
        Hasher := MMH3Hash hash128
        m1 := m1
        m2 := m2
        alpha := alpha
        format := SPARSE
        tempSet := NewSparseList p maxSparseSetSize
        sparseList := NewSparseList p (toInt (m1 * 6))
        registers := [] }

/-- The numeric functions that `gohll.go` uses and does not define: `math.Log`
and the static bias and threshold tables (`EstimateBias`, `Threshold`). -/
structure NumEnv (F : Type) where
  log : F → F
  EstimateBias : F → Nat → F
  Threshold : Nat → F

/-- Modelled from the spec: `LinearCounting` is not in `gohll.go`.  "A
linear-counting estimate `H = m * ln(m / V)`." -/
def LinearCounting [LinearOrderedField F] (log : F → F) (m : Nat) (V : Int) : F :=
  (m : F) * log ((m : F) / (V : F))

/-- The statement `if h.registers[index] < rho { h.registers[index] = rho }`;
`none` is the panic of an index out of range. -/
def updateRegister (registers : List Nat) (index rho : Nat) : Option (List Nat) :=
  match registers[index]? with
  | none => none
  | some r => if r < rho then some (registers.set index rho) else some registers

/-- The method `HLL.addNormal`. -/
def addNormal (h : HLL F) (hash : Nat) : Option (HLL F) :=
  let index := SliceUint64 hash 63 (u8sub 64 h.P)
  let w := shl64 (SliceUint64 hash (u8sub 63 h.P) 0) h.P
  let rho := LeadingBitUint64 w
  (updateRegister h.registers index rho).map (fun regs => { h with registers := regs })

/-- The loop of `HLL.toNormal` over `h.sparseList.Data`. -/
def fillRegisters (p : Nat) : List SparseEntry → List Nat → Option (List Nat)
  | [], regs => some regs
  | value :: rest, regs =>
    match updateRegister regs (DecodeHash value p).1 (DecodeHash value p).2 with
    | none => none
    | some regs1 => fillRegisters p rest regs1

/-- The method `HLL.toNormal`. -/
def toNormal (h : HLL F) : Option (HLL F) :=
  let merged := h.sparseList.Merge h.tempSet
  (fillRegisters h.P merged.1.Data (List.replicate h.m1 0)).map
    (fun regs =>
      { h with format := NORMAL, registers := regs, sparseList := merged.1.Clear,
               tempSet := merged.2 })

/-- The method `HLL.addSparse`. -/
def addSparse (h : HLL F) (hash : Nat) : Option (HLL F) :=
  let k := EncodeHash hash h.P
  let h1 : HLL F := { h with tempSet := h.tempSet.Add k }
  if h1.tempSet.Full then
    let merged := h1.sparseList.Merge h1.tempSet
    let h2 : HLL F := { h1 with sparseList := merged.1, tempSet := merged.2 }
    if h2.sparseList.Full then toNormal h2 else some h2
  else some h1

/-- The method `HLL.Add`. -/
def Add (h : HLL F) (value : String) : Option (HLL F) :=
  let hash := h.Hasher value % 2 ^ 64
  if h.format = NORMAL then addNormal h hash
  else if h.format = SPARSE then addSparse h hash
  else some h

/-- The estimator after `n` calls of `Add value`. -/
def addN (h : HLL F) (value : String) : Nat → Option (HLL F)
  | 0 => some h
  | n + 1 =>
    match Add h value with
    | none => none
    | some h1 => addN h1 value n

variable [LinearOrderedField F]

/-- The loop of `HLL.cardinalityNormal`: the sum `Ebottom` and the counter `V`. -/
def sumRegisters (registers : List Nat) : F × Int :=
  registers.foldl
    (fun acc value => (acc.1 + (2 : F) ^ (-(value : Int)), if acc.2 = 0 then acc.2 + 1 else acc.2))
    (0, 0)

/-- The method `HLL.cardinalityNormal` (its diagnostic printing left out). -/
def cardinalityNormal (env : NumEnv F) (h : HLL F) : F :=
  let Etop := h.alpha * ((h.m1 * h.m1 % 2 ^ 64 : Nat) : F)
  let Ebottom := (sumRegisters (F := F) h.registers).1
  let V := (sumRegisters (F := F) h.registers).2
  let E := Etop / Ebottom
  let Eprime := if E < 5 * (h.m1 : F) then E - env.EstimateBias E h.P else E
  let H := if V ≠ 0 then LinearCounting env.log h.m1 V else Eprime
  if H ≤ env.Threshold h.P then H else Eprime

/-- The method `HLL.cardinalitySparse`: the estimate and the estimator after
the merge. -/
def cardinalitySparse (env : NumEnv F) (h : HLL F) : F × HLL F :=
  let merged := h.sparseList.Merge h.tempSet
  (LinearCounting env.log h.m2 (toInt h.m2 - (merged.1.Len : Int)),
   { h with sparseList := merged.1, tempSet := merged.2 })

/-- The method `HLL.Cardinality`: the estimate and the estimator afterwards. -/
def Cardinality (env : NumEnv F) (h : HLL F) : F × HLL F :=
  if h.format = NORMAL then (cardinalityNormal env h, h)
  else if h.format = SPARSE then cardinalitySparse env h
  else (0, h)

/-- A call of one of the two methods of the estimator. -/
inductive Call where
  | add (value : String)
  | cardinality

/-- The estimator after one call. -/
def step (env : NumEnv F) (h : HLL F) : Call → Option (HLL F)
  | Call.add value => Add h value
  | Call.cardinality => some (Cardinality env h).2

/-- The estimator after a sequence of calls. -/
def run (env : NumEnv F) : HLL F → List Call → Option (HLL F)
  | h, [] => some h
  | h, c :: cs =>
    match step env h c with
    | none => none
    | some h1 => run env h1 cs

/-- The states of an estimator that was built by `NewHLL`, possibly given
another `Hasher` (the field is exported: the hash is a pluggable capability),
and then used through `Add` and `Cardinality`. -/
inductive Reachable (env : NumEnv F) : HLL F → Prop where
  | init (hash128 : String → List Nat) (p : Nat) (maxSparseSetSize : Int) (h : HLL F) :
      NewHLL hash128 p maxSparseSetSize = .ok h → Reachable env h
  | setHasher (h : HLL F) (f : String → Nat) :
      Reachable env h → Reachable env { h with Hasher := f }
  | step (h h1 : HLL F) (c : Call) :
      Reachable env h → step env h c = some h1 → Reachable env h1

end Estimator

/-! ## Notions of the statements -/

/-- The bucket index that `addNormal` computes from a hash:
`SliceUint64(hash, 63, 64-h.P)`. -/
def denseIndex (hash p : Nat) : Nat := SliceUint64 hash 63 (u8sub 64 p)

/-- The rank that `addNormal` computes from a hash:
`LeadingBitUint64(SliceUint64(hash, 63-h.P, 0) << h.P)`. -/
def denseRank (hash p : Nat) : Nat :=
  LeadingBitUint64 (shl64 (SliceUint64 hash (u8sub 63 p) 0) p)

/-- The shape of the register array of a dense estimator: `2^P` registers,
for a precision that `NewHLL` accepts. -/
def DenseShape {F : Type} (h : HLL F) : Prop :=
  4 ≤ h.P ∧ h.P ≤ 25 ∧ h.registers.length = 2 ^ h.P

/-- The invariant of the states of an estimator built by `NewHLL`. -/
structure Inv {F : Type} (h : HLL F) : Prop where
  p_lo : 4 ≤ h.P
  p_hi : h.P ≤ 25
  m1_eq : h.m1 = 2 ^ h.P
  m2_eq : h.m2 = 2 ^ 25
  cap_eq : h.sparseList.MaxSize = ((6 * 2 ^ h.P : Nat) : Int)
  format_cases : h.format = SPARSE ∨ h.format = NORMAL
  shape : h.format = NORMAL → h.registers.length = 2 ^ h.P
  ranks : ∀ r ∈ h.registers, r ≤ 64 - h.P ∨ r = 64
  temp_enc : ∀ e ∈ h.tempSet.Data, ∃ x, e = EncodeHash x h.P
  sparse_enc : ∀ e ∈ h.sparseList.Data, ∃ x, e = EncodeHash x h.P

/-! ## Example data -/

/-- An example numeric environment over the rationals. -/
def exampleEnv : NumEnv ℚ :=
  { log := fun x => x - 1, EstimateBias := fun _ _ => 0, Threshold := fun _ => 10 }

/-- An example dense estimator of precision 4 with all registers at zero; its
hasher maps a string to its length, placed in the top bits. -/
def exampleDense : HLL ℚ :=
  { P := 4
    Hasher := fun s => s.length * 2 ^ 58 + 1
    m1 := 16
    m2 := 2 ^ 25
    alpha := 0.673
    format := NORMAL
    tempSet := NewSparseList 4 2
    sparseList := NewSparseList 4 96
    MaxSparseSetSize := 2
    registers := List.replicate 16 0 }

/-- An example sequence of calls. -/
def exampleCalls : List Call :=
  [Call.add "a", Call.cardinality, Call.add "abcdefgh", Call.add "a"]

/-- The string of `j` letters `a`. -/
def ofLength (j : Nat) : String := String.mk (List.replicate j 'a')

/-- The calls `Add(ofLength 0)`, ..., `Add(ofLength (n-1))`. -/
def addCalls (n : Nat) : List Call := (List.range n).map (fun j => Call.add (ofLength j))

/-- A fresh estimator of precision 4 whose write buffer has capacity 96, as
`NewHLL(4, 96)` returns it, with a hasher that places the length of the string
in the bits 39 and above: the low 39 bits of every hash are zero, and the hash
of the empty string is 0. -/
def sentinelStart : HLL ℚ :=
  { P := 4
    MaxSparseSetSize := 96
    Hasher := fun s => s.length * 2 ^ 39
    m1 := 16
    m2 := 2 ^ 25
    alpha := 0.673
    format := SPARSE
    tempSet := NewSparseList 4 96
    sparseList := NewSparseList 4 96
    registers := [] }

/-- The calls `Add(ofLength 1)`, ..., `Add(ofLength 96)`: 96 hashes of different
25-bit buckets, none of them 0. -/
def sentinelCalls : List Call := (List.range 96).map (fun j => Call.add (ofLength (j + 1)))

/-- The estimator `sentinelStart` after the 96 values of `sentinelCalls`: the
96th fills the write buffer, the merge fills the container, and the estimator
is promoted. -/
def sentinelDense : HLL ℚ :=
  (run exampleEnv sentinelStart sentinelCalls).getD sentinelStart

/-- The estimator `sentinelDense` after `Add` of the empty string, whose hash
is 0. -/
def sentinelFinal : HLL ℚ :=
  (Add sentinelDense (ofLength 0)).getD sentinelDense

/-- A fresh estimator of precision 4 whose write buffer has capacity 200, as
`NewHLL(4, 200)` returns it, with the hasher of `sentinelStart`. -/
def overflowStart : HLL ℚ :=
  { P := 4
    MaxSparseSetSize := 200
    Hasher := fun s => s.length * 2 ^ 39
    m1 := 16
    m2 := 2 ^ 25
    alpha := 0.673
    format := SPARSE
    tempSet := NewSparseList 4 200
    sparseList := NewSparseList 4 96
    registers := [] }

/-- The estimator `overflowStart` after 97 values of different lengths and one
call of `Cardinality`. -/
def overflowFinal : HLL ℚ :=
  (run exampleEnv overflowStart (addCalls 97 ++ [Call.cardinality])).getD overflowStart

/-- A hasher that places the length of the string, modulo 16, in the top 4 bits
and the rest of the length in the bits 39 and above, and sets bit 0. -/
def blockHasher : String → Nat :=
  fun s => (s.length % 16) * 2 ^ 60 + (s.length / 16) * 2 ^ 39 + 1

/-- The estimator after `Add` of each value of a list, in order. -/
def addValues {F : Type} (h : HLL F) : List String → Option (HLL F)
  | [] => some h
  | v :: vs =>
    match Add h v with
    | none => none
    | some h1 => addValues h1 vs

/-- A fresh estimator of precision 4 whose write buffer has capacity 97, as
`NewHLL(4, 97)` returns it, with the hasher `blockHasher`. -/
def idemStart (F : Type) [LinearOrderedField F] : HLL F :=
  { P := 4
    MaxSparseSetSize := 97
    Hasher := blockHasher
    m1 := 16
    m2 := 2 ^ 25
    alpha := 0.673
    format := SPARSE
    tempSet := NewSparseList 4 97
    sparseList := NewSparseList 4 96
    registers := [] }

/-- The estimator `idemStart` after 95 values of different lengths. -/
def idemBase (F : Type) [LinearOrderedField F] : HLL F :=
  (addValues (idemStart F) ((List.range 95).map ofLength)).getD (idemStart F)

/-- The estimator `idemBase` after one more value, added once. -/
def idemOnce (F : Type) [LinearOrderedField F] : HLL F :=
  (Add (idemBase F) (ofLength 95)).getD (idemBase F)

/-- The estimator `idemBase` after the same value, added twice. -/
def idemTwice (F : Type) [LinearOrderedField F] : HLL F :=
  (addN (idemBase F) (ofLength 95) 2).getD (idemBase F)

/-- The maximum of the decoded ranks over the entries of `l` whose decoded
index at precision `p` is `i`, and 0 if there is no such entry. -/
def maxRankAt (p i : Nat) (l : List SparseEntry) : Nat :=
  ((l.filter (fun e => (DecodeHash e p).1 = i)).map (fun e => (DecodeHash e p).2)).foldl max 0

/-- The number of registers whose value is 0. -/
def zeroRegisters (registers : List Nat) : Nat :=
  (registers.filter (fun r => r = 0)).length

/-- The number of distinct 25-bit bucket indices among the entries of `l`. -/
def distinctIndices (l : List SparseEntry) : Nat :=
  (l.map (fun e => e.index25)).dedup.length

/-- The estimator after `addNormal` of each hash of a list, in order. -/
def addNormals {F : Type} (h : HLL F) : List Nat → Option (HLL F)
  | [] => some h
  | x :: xs =>
    match addNormal h x with
    | none => none
    | some h1 => addNormals h1 xs

/-- The estimator `sentinelStart` after the first 95 values of `sentinelCalls`:
still sparse, one entry short of the capacity of its container. -/
def promoteBefore : HLL ℚ :=
  (run exampleEnv sentinelStart (sentinelCalls.take 95)).getD sentinelStart

/-- The estimator `promoteBefore` after one more value, which promotes it. -/
def promoteAfter : HLL ℚ :=
  (Add promoteBefore (ofLength 96)).getD promoteBefore

/-- A fresh estimator of precision 4 whose write buffer has capacity 1, as
`NewHLL(4, 1)` returns it, with the hasher of `sentinelStart`: every `Add`
finds the buffer at its capacity. -/
def flushStart : HLL ℚ :=
  { P := 4
    MaxSparseSetSize := 1
    Hasher := fun s => s.length * 2 ^ 39
    m1 := 16
    m2 := 2 ^ 25
    alpha := 0.673
    format := SPARSE
    tempSet := NewSparseList 4 1
    sparseList := NewSparseList 4 96
    registers := [] }

/-- The estimator `flushStart` after `Add` of a first value. -/
def flushOne : HLL ℚ := (Add flushStart "a").getD flushStart

/-- The estimator `flushOne` after a call of `Cardinality`. -/
def flushMid : HLL ℚ := (Cardinality exampleEnv flushOne).2

/-- The estimator `flushMid` after two more values. -/
def flushAfter : HLL ℚ :=
  (run exampleEnv flushMid (["ab", "abc"].map Call.add)).getD flushMid

/-- The estimator `idemStart` after the 24 values of the lengths 8 to 31: still
sparse, with the 24 entries in its write buffer; two of them go to each of the
registers 8 to 15, one to each of the registers 0 to 7. -/
def spreadState : HLL ℚ :=
  (addValues (idemStart ℚ) ((List.range 24).map (fun j => ofLength (j + 8)))).getD (idemStart ℚ)

/-- Calls that leave entries in the container and a repeated entry in the
write buffer. -/
def dupCalls : List Call :=
  [Call.add "a", Call.add "ab", Call.cardinality, Call.add "a", Call.add "abc"]

/-- The estimator `overflowStart` after the calls `dupCalls`: the container
holds the two entries that `Cardinality` merged into it, the write buffer four
entries of three buckets. -/
def dupState : HLL ℚ := (run exampleEnv overflowStart dupCalls).getD overflowStart

/-! ## Construction -/

section Construction

variable {F : Type} [LinearOrderedField F]

/-- C1: `NewHLL p maxSparseSetSize` returns an estimator and no error exactly
when `4 ≤ p ≤ 25`; for `p < 4` or `p > 25` it returns the error
`InvalidPError` and no estimator. -/
theorem NewHLL_ok_iff (hash128 : String → List Nat) (p : Nat) (maxSparseSetSize : Int) :
    ((∃ h : HLL F, NewHLL hash128 p maxSparseSetSize = .ok h) ↔ (4 ≤ p ∧ p ≤ 25)) ∧
    ((p < 4 ∨ p > 25) ↔
      NewHLL (F := F) hash128 p maxSparseSetSize = .error Error.InvalidPError) := by
  unfold NewHLL
  by_cases hp : p < 4 ∨ p > 25
  · simp only [hp, if_true]
    constructor
    · constructor
      · rintro ⟨h, hh⟩
        cases hh
      · rintro ⟨h1, h2⟩
        omega
    · simp
  · simp only [hp, if_false]
    constructor
    · constructor
      · intro _
        omega
      · intro _
        exact ⟨_, rfl⟩
    · simp

/-- C8: for `4 ≤ p ≤ 25` the estimator that `NewHLL` returns has `P = p`,
`m1 = 2^p`, `m2 = 2^25`, the representation `SPARSE`, an empty write buffer of
capacity `maxSparseSetSize`, an empty sparse container of capacity `6*m1` and
no register array. -/
theorem NewHLL_fields (hash128 : String → List Nat) (p : Nat) (maxSparseSetSize : Int)
    (hlo : 4 ≤ p) (hhi : p ≤ 25) :
    ∃ h : HLL F, NewHLL hash128 p maxSparseSetSize = .ok h ∧
      h.P = p ∧ h.m1 = 2 ^ p ∧ h.m2 = 2 ^ 25 ∧ h.format = SPARSE ∧
      h.tempSet.Data = [] ∧ h.tempSet.MaxSize = maxSparseSetSize ∧
      h.sparseList.Data = [] ∧ h.sparseList.MaxSize = ((6 * h.m1 : Nat) : Int) ∧
      h.registers = [] := by
  have hp : ¬ (p < 4 ∨ p > 25) := by omega
  have hpow : 2 ^ p ≤ 2 ^ 25 := Nat.pow_le_pow_right (by decide) hhi
  have hm : 2 ^ p % 2 ^ 64 = 2 ^ p := Nat.mod_eq_of_lt (by omega)
  have hcap : toInt (2 ^ p * 6) = ((6 * 2 ^ p : Nat) : Int) := by
    unfold toInt
    have h6 : 2 ^ p * 6 % 2 ^ 64 = 6 * 2 ^ p := by
      rw [Nat.mod_eq_of_lt (by omega)]
      omega
    rw [h6, if_pos (by omega)]
  refine ⟨_, by unfold NewHLL; rw [if_neg hp], ?_⟩
  simp only [hm, hcap, NewSparseList, SPARSE]
  simp

/-- Witness of C8 at `p = 4` with a write buffer of capacity 10. -/
theorem NewHLL_fields_witness :
    ∃ h : HLL ℚ, NewHLL (fun _ => []) 4 10 = .ok h ∧
      h.P = 4 ∧ h.m1 = 2 ^ 4 ∧ h.m2 = 2 ^ 25 ∧ h.format = SPARSE ∧
      h.tempSet.Data = [] ∧ h.tempSet.MaxSize = 10 ∧
      h.sparseList.Data = [] ∧ h.sparseList.MaxSize = ((6 * h.m1 : Nat) : Int) ∧
      h.registers = [] :=
  NewHLL_fields (fun _ => []) 4 10 (by decide) (by decide)

end Construction


/-! ## The dense representation -/

section Dense

variable {F : Type}

theorem u8sub_of_le {a b : Nat} (ha : a < 256) (hb : b ≤ a) : u8sub a b = a - b := by
  unfold u8sub
  omega

theorem set_self_of_getElem? {regs : List Nat} {i r : Nat} (h : regs[i]? = some r) :
    regs.set i r = regs := by
  apply List.ext_getElem?
  intro j
  rw [List.getElem?_set]
  by_cases hij : i = j
  · subst hij
    rw [if_pos rfl, h]
    have hi : i < regs.length := by
      by_contra hn
      rw [List.getElem?_eq_none (by omega)] at h
      cases h
    rw [if_pos hi]
  · rw [if_neg hij]

theorem updateRegister_spec {regs regs1 : List Nat} {i rho : Nat}
    (h : updateRegister regs i rho = some regs1) :
    i < regs.length ∧ regs1 = regs.set i (max (regs.getD i 0) rho) := by
  unfold updateRegister at h
  cases hget : regs[i]? with
  | none => simp [hget] at h
  | some r =>
    have hi : i < regs.length := by
      by_contra hn
      rw [List.getElem?_eq_none (by omega)] at hget
      cases hget
    have hr : regs.getD i 0 = r := by
      simp [List.getD_eq_getElem?_getD, hget]
    refine ⟨hi, ?_⟩
    rw [hr]
    simp only [hget] at h
    by_cases hlt : r < rho
    · rw [if_pos hlt] at h
      rw [max_eq_right (le_of_lt hlt)]
      exact (Option.some.inj h).symm
    · rw [if_neg hlt] at h
      rw [max_eq_left (not_lt.mp hlt), set_self_of_getElem? hget]
      exact (Option.some.inj h).symm

theorem updateRegister_total {regs : List Nat} {i : Nat} (rho : Nat) (hi : i < regs.length) :
    updateRegister regs i rho = some (regs.set i (max (regs.getD i 0) rho)) := by
  cases hu : updateRegister regs i rho with
  | none =>
    unfold updateRegister at hu
    rw [List.getElem?_eq_getElem hi] at hu
    simp only at hu
    split at hu <;> cases hu
  | some regs1 => rw [(updateRegister_spec hu).2]

theorem getD_set_max_ge (regs : List Nat) (i rho j : Nat) :
    regs.getD j 0 ≤ (regs.set i (max (regs.getD i 0) rho)).getD j 0 := by
  simp only [List.getD_eq_getElem?_getD, List.getElem?_set]
  by_cases hij : i = j
  · subst hij
    by_cases hi : i < regs.length
    · simp [hi]
    · simp [hi, List.getElem?_eq_none (not_lt.mp hi)]
  · simp [hij]

theorem denseIndex_lt (hash p : Nat) (hp : p ≤ 64) : denseIndex hash p < 2 ^ p := by
  unfold denseIndex
  rw [u8sub_of_le (by decide) hp]
  unfold SliceUint64
  apply Nat.div_lt_of_lt_mul
  rw [← Nat.pow_add]
  have : 64 - p + p = 64 := by omega
  rw [this]
  exact Nat.mod_lt _ (by decide)

theorem addNormal_eq (h : HLL F) (hash : Nat) :
    addNormal h hash =
      (updateRegister h.registers (denseIndex hash h.P) (denseRank hash h.P)).map
        (fun regs => { h with registers := regs }) := rfl

theorem addNormal_spec {h h1 : HLL F} {hash : Nat} (hadd : addNormal h hash = some h1) :
    denseIndex hash h.P < h.registers.length ∧
    h1 = { h with registers := (h.registers.set (denseIndex hash h.P)
            (max (h.registers.getD (denseIndex hash h.P) 0) (denseRank hash h.P))) } := by
  rw [addNormal_eq] at hadd
  simp only [Option.map_eq_some'] at hadd
  obtain ⟨regs, hregs, rfl⟩ := hadd
  rw [(updateRegister_spec hregs).2]
  exact ⟨(updateRegister_spec hregs).1, rfl⟩

theorem addNormal_total (h : HLL F) (hash : Nat) (hs : DenseShape h) :
    ∃ h1, addNormal h hash = some h1 := by
  obtain ⟨_, hhi, hlen⟩ := hs
  have hi : denseIndex hash h.P < h.registers.length := by
    rw [hlen]
    exact denseIndex_lt hash h.P (by omega)
  rw [addNormal_eq, updateRegister_total _ hi]
  exact ⟨_, rfl⟩

variable [LinearOrderedField F]

/-- What a call does to a dense estimator: the flag, the precision and the
length of the register array stay, and no register decreases. -/
theorem step_dense {env : NumEnv F} {h h1 : HLL F} {c : Call} (hf : h.format = NORMAL)
    (hstep : step env h c = some h1) :
    h1.format = NORMAL ∧ h1.P = h.P ∧ h1.registers.length = h.registers.length ∧
      ∀ i, h.registers.getD i 0 ≤ h1.registers.getD i 0 := by
  cases c with
  | add value =>
    have hadd : addNormal h (h.Hasher value % 2 ^ 64) = some h1 := by
      simpa [step, Add, hf] using hstep
    rw [(addNormal_spec hadd).2]
    refine ⟨hf, rfl, ?_, ?_⟩
    · simp
    · intro i
      exact getD_set_max_ge _ _ _ _
  | cardinality =>
    have : h1 = h := by
      simpa [step, Cardinality, hf] using hstep.symm
    subst this
    exact ⟨hf, rfl, rfl, fun _ => le_refl _⟩

theorem step_dense_total (env : NumEnv F) (h : HLL F) (c : Call) (hf : h.format = NORMAL)
    (hs : DenseShape h) : ∃ h1, step env h c = some h1 := by
  cases c with
  | add value =>
    obtain ⟨h1, hadd⟩ := addNormal_total h (h.Hasher value % 2 ^ 64) hs
    exact ⟨h1, by simpa [step, Add, hf] using hadd⟩
  | cardinality => exact ⟨_, rfl⟩

theorem run_dense {env : NumEnv F} (cs : List Call) :
    ∀ {h h1 : HLL F}, h.format = NORMAL → run env h cs = some h1 →
      h1.format = NORMAL ∧ h1.P = h.P ∧ h1.registers.length = h.registers.length ∧
        ∀ i, h.registers.getD i 0 ≤ h1.registers.getD i 0 := by
  induction cs with
  | nil =>
    intro h h1 hf hrun
    have : h1 = h := by simpa [run] using hrun.symm
    subst this
    exact ⟨hf, rfl, rfl, fun _ => le_refl _⟩
  | cons c cs ih =>
    intro h h1 hf hrun
    unfold run at hrun
    cases hstep : step env h c with
    | none => simp [hstep] at hrun
    | some h2 =>
      simp only [hstep] at hrun
      obtain ⟨hf2, hP2, hlen2, hmono2⟩ := step_dense hf hstep
      obtain ⟨hf1, hP1, hlen1, hmono1⟩ := ih hf2 hrun
      exact ⟨hf1, hP1.trans hP2, hlen1.trans hlen2, fun i => le_trans (hmono2 i) (hmono1 i)⟩

theorem run_dense_total (env : NumEnv F) (cs : List Call) :
    ∀ (h : HLL F), h.format = NORMAL → DenseShape h → ∃ h1, run env h cs = some h1 := by
  induction cs with
  | nil => intro h _ _; exact ⟨h, rfl⟩
  | cons c cs ih =>
    intro h hf hs
    obtain ⟨h2, hstep⟩ := step_dense_total env h c hf hs
    obtain ⟨hf2, hP2, hlen2, _⟩ := step_dense hf hstep
    have hs2 : DenseShape h2 := by
      unfold DenseShape at hs ⊢
      rw [hP2, hlen2]
      exact hs
    obtain ⟨h1, hrun⟩ := ih h2 hf2 hs2
    refine ⟨h1, ?_⟩
    unfold run
    simp only [hstep]
    exact hrun

/-- C4: a dense estimator stays dense: after any finite sequence of `Add` and
`Cardinality` calls on an estimator whose flag is `NORMAL` the flag is still
`NORMAL`; and on a register array of the right shape the sequence does run to
its end. -/
theorem dense_stays_dense (env : NumEnv F) (h : HLL F) (cs : List Call)
    (hf : h.format = NORMAL) :
    (∀ h1, run env h cs = some h1 → h1.format = NORMAL) ∧
    (DenseShape h → ∃ h1, run env h cs = some h1 ∧ h1.format = NORMAL) := by
  refine ⟨fun h1 hrun => (run_dense cs hf hrun).1, fun hs => ?_⟩
  obtain ⟨h1, hrun⟩ := run_dense_total env cs h hf hs
  exact ⟨h1, hrun, (run_dense cs hf hrun).1⟩

/-- Witness of C4 on the example dense estimator. -/
theorem dense_stays_dense_witness :
    exampleDense.format = NORMAL ∧
    ∃ h1, run exampleEnv exampleDense exampleCalls = some h1 ∧ h1.format = NORMAL :=
  ⟨rfl, (dense_stays_dense exampleEnv exampleDense exampleCalls rfl).2
    ⟨by decide, by decide, rfl⟩⟩

/-- C6: dense registers never decrease: after any finite sequence of `Add` and
`Cardinality` calls on a dense estimator the register array has the length it
had and every register is at least what it was; and on a register array of the
right shape the sequence does run to its end. -/
theorem dense_registers_never_decrease (env : NumEnv F) (h : HLL F) (cs : List Call)
    (hf : h.format = NORMAL) :
    (∀ h1, run env h cs = some h1 →
      h1.registers.length = h.registers.length ∧
      ∀ i, i < h.registers.length → h.registers.getD i 0 ≤ h1.registers.getD i 0) ∧
    (DenseShape h → ∃ h1, run env h cs = some h1) := by
  refine ⟨fun h1 hrun => ?_, fun hs => run_dense_total env cs h hf hs⟩
  obtain ⟨_, _, hlen, hmono⟩ := run_dense cs hf hrun
  exact ⟨hlen, fun i _ => hmono i⟩

/-- Witness of C6 on the example dense estimator. -/
theorem dense_registers_never_decrease_witness :
    exampleDense.format = NORMAL ∧
    ∃ h1, run exampleEnv exampleDense exampleCalls = some h1 :=
  ⟨rfl, (dense_registers_never_decrease exampleEnv exampleDense exampleCalls rfl).2
    ⟨by decide, by decide, rfl⟩⟩

end Dense


/-! ## The default hasher -/

section Hasher

theorem lor_mul_two_pow {a k : Nat} (b : Nat) (ha : a < 2 ^ k) :
    a ||| b * 2 ^ k = a + b * 2 ^ k := by
  rw [Nat.lor_comm, Nat.mul_comm b, ← Nat.mul_add_lt_is_or ha, Nat.add_comm]

theorem shl64_byte {b k : Nat} (hb : b < 256) (hk : k ≤ 56) :
    shl64 (b % 256) k = b * 2 ^ k := by
  unfold shl64
  rw [Nat.mod_eq_of_lt hb]
  apply Nat.mod_eq_of_lt
  calc b * 2 ^ k < 2 ^ 8 * 2 ^ k := Nat.mul_lt_mul_of_pos_right hb (Nat.two_pow_pos k)
    _ = 2 ^ (8 + k) := (Nat.pow_add 2 8 k).symm
    _ ≤ 2 ^ 64 := Nat.pow_le_pow_right (by decide) (by omega)

theorem shl64_high (b : Nat) {k : Nat} (hk : 64 ≤ k) : shl64 b k = 0 := by
  unfold shl64
  apply Nat.mod_eq_zero_of_dvd
  exact Dvd.dvd.mul_left (Nat.pow_dvd_pow 2 hk) b

/-- C9: the default hasher packs the first 8 bytes of the 16-byte digest
little-endian, byte `i` into the bits `8i .. 8i+7`; the bytes 8 to 15 of the
digest have no effect on the result. -/
theorem MMH3Hash_little_endian (hash128 : String → List Nat) (value : String)
    (b0 b1 b2 b3 b4 b5 b6 b7 b8 b9 b10 b11 b12 b13 b14 b15 : Nat)
    (hd : hash128 value = [b0, b1, b2, b3, b4, b5, b6, b7, b8, b9, b10, b11, b12, b13, b14, b15])
    (h0 : b0 < 256) (h1 : b1 < 256) (h2 : b2 < 256) (h3 : b3 < 256)
    (h4 : b4 < 256) (h5 : b5 < 256) (h6 : b6 < 256) (h7 : b7 < 256) :
    MMH3Hash hash128 value =
      b0 + b1 * 2 ^ 8 + b2 * 2 ^ 16 + b3 * 2 ^ 24 + b4 * 2 ^ 32 + b5 * 2 ^ 40 +
        b6 * 2 ^ 48 + b7 * 2 ^ 56 := by
  simp only [MMH3Hash, foldDigest, hd, List.enum, List.enumFrom, List.foldl]
  rw [shl64_byte h0 (by decide), shl64_byte h1 (by decide), shl64_byte h2 (by decide),
    shl64_byte h3 (by decide), shl64_byte h4 (by decide), shl64_byte h5 (by decide),
    shl64_byte h6 (by decide), shl64_byte h7 (by decide),
    shl64_high _ (by decide), shl64_high _ (by decide), shl64_high _ (by decide),
    shl64_high _ (by decide), shl64_high _ (by decide), shl64_high _ (by decide),
    shl64_high _ (by decide), shl64_high _ (by decide)]
  simp only [Nat.or_zero, Nat.zero_or]
  have e0 : b0 * 2 ^ (0 * 8) = b0 := by simp
  rw [e0, lor_mul_two_pow b1 (by omega : b0 < 2 ^ ((0 + 1) * 8)),
    lor_mul_two_pow b2 (by omega), lor_mul_two_pow b3 (by omega),
    lor_mul_two_pow b4 (by omega), lor_mul_two_pow b5 (by omega),
    lor_mul_two_pow b6 (by omega), lor_mul_two_pow b7 (by omega)]

/-- Witness of C9 on the digest `1, 2, ..., 16`. -/
theorem MMH3Hash_little_endian_witness :
    (∀ b ∈ [1, 2, 3, 4, 5, 6, 7, 8], b < 256) ∧
    MMH3Hash (fun _ => [1, 2, 3, 4, 5, 6, 7, 8, 9, 10, 11, 12, 13, 14, 15, 16]) "a" =
      1 + 2 * 2 ^ 8 + 3 * 2 ^ 16 + 4 * 2 ^ 24 + 5 * 2 ^ 32 + 6 * 2 ^ 40 +
        7 * 2 ^ 48 + 8 * 2 ^ 56 :=
  ⟨by decide,
   MMH3Hash_little_endian (fun _ => [1, 2, 3, 4, 5, 6, 7, 8, 9, 10, 11, 12, 13, 14, 15, 16])
    "a" 1 2 3 4 5 6 7 8 9 10 11 12 13 14 15 16 rfl (by decide) (by decide) (by decide)
    (by decide) (by decide) (by decide) (by decide) (by decide)⟩

end Hasher


/-! ## The sparse representation -/

section Sparse

variable {F : Type} [LinearOrderedField F]

theorem NewHLL_eq (hash128 : String → List Nat) (p : Nat) (maxSparseSetSize : Int)
    (hlo : 4 ≤ p) (hhi : p ≤ 25) :
    NewHLL (F := F) hash128 p maxSparseSetSize = .ok
      { P := p
        MaxSparseSetSize := maxSparseSetSize
        Hasher := MMH3Hash hash128
        m1 := 2 ^ p
        m2 := 2 ^ 25
        alpha := (if 2 ^ p = 16 then 0.673 else if 2 ^ p = 32 then 0.697
          else if 2 ^ p = 64 then 0.709 else 0.7213 / (1 + 1.079 / ((2 ^ p : Nat) : F)))
        format := SPARSE
        tempSet := NewSparseList p maxSparseSetSize
        sparseList := NewSparseList p ((6 * 2 ^ p : Nat) : Int)
        registers := [] } := by
  have hp : ¬ (p < 4 ∨ p > 25) := by omega
  have hpow : 2 ^ p ≤ 2 ^ 25 := Nat.pow_le_pow_right (by decide) hhi
  have hm : 2 ^ p % 2 ^ 64 = 2 ^ p := Nat.mod_eq_of_lt (by omega)
  have hcap : toInt (2 ^ p * 6) = ((6 * 2 ^ p : Nat) : Int) := by
    unfold toInt
    have h6 : 2 ^ p * 6 % 2 ^ 64 = 6 * 2 ^ p := by
      rw [Nat.mod_eq_of_lt (by omega)]
      omega
    rw [h6, if_pos (by omega)]
  unfold NewHLL
  rw [if_neg hp]
  simp only [hm, hcap]
  rfl

theorem LinearCounting_self (log : F → F) (hlog : log 1 = 0) (m : Nat) (hm : 0 < m) :
    LinearCounting log m (m : Int) = 0 := by
  unfold LinearCounting
  have hne : (m : F) ≠ 0 := Nat.cast_ne_zero.mpr (by omega)
  rw [Int.cast_natCast, div_self hne, hlog, mul_zero]

/-- C7: `Cardinality` on a freshly constructed estimator is the linear-counting
formula over `m2 = 2^25` buckets with all `m2` buckets empty,
`LinearCounting(m2, m2) = m2 * ln(m2 / m2)`, which is `0` (as `ln 1 = 0`); over
the real numbers, with the natural logarithm, it is `0`. -/
theorem Cardinality_fresh (hash128 : String → List Nat) (p : Nat) (maxSparseSetSize : Int)
    (hlo : 4 ≤ p) (hhi : p ≤ 25) :
    (∃ h : HLL F, NewHLL hash128 p maxSparseSetSize = .ok h ∧
      ∀ env : NumEnv F,
        (Cardinality env h).1 = LinearCounting env.log (2 ^ 25) ((2 ^ 25 : Nat) : Int) ∧
        (env.log 1 = 0 → (Cardinality env h).1 = 0)) ∧
    (∃ h : HLL ℝ, NewHLL hash128 p maxSparseSetSize = .ok h ∧
      ∀ (bias : ℝ → Nat → ℝ) (threshold : Nat → ℝ),
        (Cardinality { log := Real.log, EstimateBias := bias, Threshold := threshold } h).1 =
          (2 ^ 25 : ℝ) * Real.log ((2 ^ 25 : ℝ) / (2 ^ 25 : ℝ)) ∧
        (Cardinality { log := Real.log, EstimateBias := bias, Threshold := threshold } h).1 = 0) := by
  have key : ∀ (G : Type) [LinearOrderedField G] (env : NumEnv G) (h : HLL G),
      NewHLL hash128 p maxSparseSetSize = .ok h →
      (Cardinality env h).1 = LinearCounting env.log (2 ^ 25) ((2 ^ 25 : Nat) : Int) := by
    intro G _ env h hnew
    rw [NewHLL_eq hash128 p maxSparseSetSize hlo hhi] at hnew
    cases hnew
    simp [Cardinality, cardinalitySparse, SPARSE, NORMAL, SparseList.Merge, NewSparseList,
      SparseList.Len, toInt]
  constructor
  · refine ⟨_, NewHLL_eq hash128 p maxSparseSetSize hlo hhi, fun env => ?_⟩
    have hk := key F env _ (NewHLL_eq hash128 p maxSparseSetSize hlo hhi)
    refine ⟨hk, fun hlog => ?_⟩
    rw [hk]
    exact LinearCounting_self env.log hlog _ (by decide)
  · refine ⟨_, NewHLL_eq hash128 p maxSparseSetSize hlo hhi, fun bias threshold => ?_⟩
    have hk := key ℝ { log := Real.log, EstimateBias := bias, Threshold := threshold } _
      (NewHLL_eq hash128 p maxSparseSetSize hlo hhi)
    have h0 := LinearCounting_self Real.log Real.log_one (2 ^ 25) (by decide)
    refine ⟨?_, by rw [hk]; exact h0⟩
    rw [hk]
    simp [LinearCounting]

/-- Witness of C7 at `p = 4` over the rationals. -/
theorem Cardinality_fresh_witness :
    (4 ≤ 4 ∧ 4 ≤ 25) ∧
    ∃ h : HLL ℚ, NewHLL (fun _ => []) 4 10 = .ok h ∧
      ∀ env : NumEnv ℚ,
        (Cardinality env h).1 = LinearCounting env.log (2 ^ 25) ((2 ^ 25 : Nat) : Int) ∧
        (env.log 1 = 0 → (Cardinality env h).1 = 0) :=
  ⟨by decide, (Cardinality_fresh (fun _ => []) 4 10 (by decide) (by decide)).1⟩

end Sparse


/-! ## Encoding and decoding of sparse entries -/

section Encoding

theorem leadingZeros_of_bounds (n : Nat) :
    ∀ (w b : Nat), 2 ^ b ≤ w → w < 2 ^ (b + 1) → b < n → leadingZeros n w = n - 1 - b := by
  induction n with
  | zero => intro w b _ _ hb; omega
  | succ n ih =>
    intro w b hlo hhi hb
    unfold leadingZeros
    by_cases hbn : b = n
    · subst hbn
      have hdiv : w / 2 ^ b = 1 := by
        apply Nat.div_eq_of_lt_le
        · simpa using hlo
        · have : 2 ^ (b + 1) = (1 + 1) * 2 ^ b := by rw [Nat.pow_succ]; omega
          omega
      have ht : w.testBit b = true := by
        rw [Nat.testBit_to_div_mod, hdiv]
        rfl
      rw [if_pos ht]
      omega
    · have hbn2 : b < n := by omega
      have hw : w < 2 ^ n := lt_of_lt_of_le hhi (Nat.pow_le_pow_right (by decide) (by omega))
      have ht : w.testBit n = false := Nat.testBit_lt_two_pow hw
      rw [ht, ih w b hlo hhi hbn2]
      simp
      omega

/-- The rank of a non-zero 64-bit word whose highest set bit is the bit `b`. -/
theorem LeadingBitUint64_of_bounds {w b : Nat} (hlo : 2 ^ b ≤ w) (hhi : w < 2 ^ (b + 1))
    (hb : b ≤ 63) : LeadingBitUint64 w = 64 - b := by
  have hw64 : w < 2 ^ 64 := lt_of_lt_of_le hhi (Nat.pow_le_pow_right (by decide) (by omega))
  have hpos : 0 < w := lt_of_lt_of_le (Nat.two_pow_pos b) hlo
  unfold LeadingBitUint64
  rw [Nat.mod_eq_of_lt hw64, if_neg (by omega), leadingZeros_of_bounds 64 w b hlo hhi (by omega)]
  omega

theorem LeadingBitUint64_zero : LeadingBitUint64 0 = 64 := by decide

/-- The rank of `y * 2^k` for a non-zero `y` below `2^(64-k)`, through the
position `Nat.log2 y` of the highest set bit of `y`. -/
theorem LeadingBitUint64_shift {y k : Nat} (hy : y ≠ 0) (hk : k ≤ 64) (hlt : y < 2 ^ (64 - k)) :
    LeadingBitUint64 (y * 2 ^ k) = 64 - (Nat.log2 y + k) := by
  have hlog : Nat.log2 y < 64 - k := (Nat.log2_lt hy).mpr hlt
  apply LeadingBitUint64_of_bounds
  · rw [Nat.pow_add]
    exact Nat.mul_le_mul_right _ (Nat.log2_self_le hy)
  · have : Nat.log2 y + k + 1 = (Nat.log2 y + 1) + k := by omega
    rw [this, Nat.pow_add]
    exact Nat.mul_lt_mul_of_pos_right Nat.lt_log2_self (Nat.two_pow_pos k)
  · omega

theorem shl64_of_lt {y k : Nat} (hk : k ≤ 64) (hlt : y < 2 ^ (64 - k)) :
    shl64 y k = y * 2 ^ k := by
  unfold shl64
  apply Nat.mod_eq_of_lt
  calc y * 2 ^ k < 2 ^ (64 - k) * 2 ^ k := Nat.mul_lt_mul_of_pos_right hlt (Nat.two_pow_pos k)
    _ = 2 ^ 64 := by rw [← Nat.pow_add]; congr 1; omega

theorem log2_div_two_pow {y k : Nat} (hy : 2 ^ k ≤ y) : Nat.log2 y = Nat.log2 (y / 2 ^ k) + k := by
  have hy0 : y ≠ 0 := by
    have := Nat.two_pow_pos k
    omega
  have hz : y / 2 ^ k ≠ 0 := by
    have := Nat.div_pos hy (Nat.two_pow_pos k)
    omega
  apply Nat.le_antisymm
  · have h1 : Nat.log2 y < Nat.log2 (y / 2 ^ k) + k + 1 := by
      rw [Nat.log2_lt hy0]
      have h2 : y / 2 ^ k < 2 ^ (Nat.log2 (y / 2 ^ k) + 1) := Nat.lt_log2_self
      have h3 : y < 2 ^ (Nat.log2 (y / 2 ^ k) + 1) * 2 ^ k :=
        (Nat.div_lt_iff_lt_mul (Nat.two_pow_pos k)).mp h2
      have h4 : Nat.log2 (y / 2 ^ k) + k + 1 = (Nat.log2 (y / 2 ^ k) + 1) + k := by omega
      rw [h4, Nat.pow_add]
      exact h3
    omega
  · rw [Nat.le_log2 hy0, Nat.pow_add]
    calc 2 ^ Nat.log2 (y / 2 ^ k) * 2 ^ k ≤ y / 2 ^ k * 2 ^ k :=
          Nat.mul_le_mul_right _ (Nat.log2_self_le hz)
      _ ≤ y := Nat.div_mul_le_self y (2 ^ k)

theorem two_pow_split (p : Nat) (hp : p ≤ 25) : 2 ^ 39 * 2 ^ (25 - p) = 2 ^ (64 - p) := by
  rw [← Nat.pow_add]
  congr 1
  omega

/-- Decoding an encoded hash gives the index and the rank of the dense path. -/
theorem decode_encode (hash p : Nat) (hhi : p ≤ 25) :
    DecodeHash (EncodeHash hash p) p = (denseIndex hash p, denseRank hash p) := by
  have h63 : u8sub 63 p = 63 - p := u8sub_of_le (by decide) (by omega)
  have h64 : u8sub 64 p = 64 - p := u8sub_of_le (by decide) (by omega)
  have hsplit := two_pow_split p hhi
  have hx : hash % 2 ^ 64 < 2 ^ 64 := Nat.mod_lt _ (by decide)
  have hdvd64 : 2 ^ (64 - p) ∣ 2 ^ 64 := Nat.pow_dvd_pow 2 (by omega)
  have hdvd39 : 2 ^ 39 ∣ 2 ^ (64 - p) := Nat.pow_dvd_pow 2 (by omega)
  -- the five slices, over `x = hash % 2^64` and `y = x % 2^(64-p)`
  have s1 : SliceUint64 hash 63 39 = hash % 2 ^ 64 / 2 ^ 39 := by
    simp [SliceUint64]
  have s2 : SliceUint64 hash 38 0 = hash % 2 ^ 64 % 2 ^ (64 - p) % 2 ^ 39 := by
    simp only [SliceUint64, Nat.pow_zero, Nat.div_one]
    rw [Nat.mod_mod_of_dvd _ hdvd39]
  have s3 : SliceUint64 hash (u8sub 63 p) 39 = hash % 2 ^ 64 % 2 ^ (64 - p) / 2 ^ 39 := by
    rw [h63]
    unfold SliceUint64
    have : 63 - p + 1 = 64 - p := by omega
    rw [this]
  have s4 : SliceUint64 hash 63 (u8sub 64 p) = hash % 2 ^ 64 / 2 ^ (64 - p) := by
    rw [h64]
    simp [SliceUint64]
  have s5 : SliceUint64 hash (u8sub 63 p) 0 = hash % 2 ^ 64 % 2 ^ (64 - p) := by
    rw [h63]
    unfold SliceUint64
    have : 63 - p + 1 = 64 - p := by omega
    rw [this, Nat.pow_zero, Nat.div_one]
  unfold DecodeHash EncodeHash denseIndex denseRank
  simp only [s1, s2, s3, s4, s5]
  generalize hash % 2 ^ 64 = x at hx
  have hy : x % 2 ^ (64 - p) < 2 ^ (64 - p) := Nat.mod_lt _ (Nat.two_pow_pos _)
  have hidx : x / 2 ^ 39 < 2 ^ 25 := Nat.div_lt_of_lt_mul (by omega)
  have hz : x / 2 ^ 39 % 2 ^ (25 - p) = x % 2 ^ (64 - p) / 2 ^ 39 := by
    rw [← hsplit, Nat.mod_mul_right_div_self]
  have hi : x / 2 ^ 39 % 2 ^ 25 / 2 ^ (25 - p) = x / 2 ^ (64 - p) := by
    rw [Nat.mod_eq_of_lt hidx, Nat.div_div_eq_div_mul, hsplit]
  rw [hi, hz]
  generalize x % 2 ^ (64 - p) = y at hy
  congr 1
  by_cases hzero : y / 2 ^ 39 = 0
  · have hy39 : y < 2 ^ 39 := by
      by_contra hn
      have := Nat.div_pos (not_lt.mp hn) (Nat.two_pow_pos 39)
      omega
    have hyp : y < 2 ^ (64 - p) := hy
    rw [Nat.mod_eq_of_lt hy39, shl64_of_lt (by decide) hy39, shl64_of_lt (by omega) hyp]
    simp only [hzero, beq_self_eq_true, if_true]
    by_cases hy0 : y = 0
    · subst hy0
      simp [LeadingBitUint64_zero]
    · have hlog : Nat.log2 y < 39 := (Nat.log2_lt hy0).mpr hy39
      rw [LeadingBitUint64_shift hy0 (by decide) hy39, LeadingBitUint64_shift hy0 (by omega) hyp]
      rw [if_neg (by omega)]
      omega
  · have hy39 : 2 ^ 39 ≤ y := by
      by_contra hn
      exact hzero (Nat.div_eq_of_lt (not_le.mp hn))
    have hy0 : y ≠ 0 := by
      have := Nat.two_pow_pos 39
      omega
    have hzlt : y / 2 ^ 39 < 2 ^ (64 - (39 + p)) := by
      apply Nat.div_lt_of_lt_mul
      have : 64 - (39 + p) = 25 - p := by omega
      rw [this, hsplit]
      exact hy
    have hb : (y / 2 ^ 39 == 0) = false := by simpa using hzero
    rw [hb]
    simp only [Bool.false_eq_true, if_false]
    rw [shl64_of_lt (by omega) hzlt, shl64_of_lt (by omega) hy,
      LeadingBitUint64_shift hzero (by omega) hzlt, LeadingBitUint64_shift hy0 (by omega) hy,
      log2_div_two_pow hy39]
    omega

/-- C2: for `4 ≤ p ≤ 25`, decoding an encoded hash gives the index and the
rank that `addNormal` computes from the hash itself,
`SliceUint64(hash, 63, 64-p)` and
`LeadingBitUint64(SliceUint64(hash, 63-p, 0) << p)`: promoting the sparse entry
updates the register that the dense path updates, with the same rank. -/
theorem DecodeHash_EncodeHash (hash p : Nat) (hp : 4 ≤ p ∧ p ≤ 25) :
    DecodeHash (EncodeHash hash p) p =
        (SliceUint64 hash 63 (u8sub 64 p),
         LeadingBitUint64 (shl64 (SliceUint64 hash (u8sub 63 p) 0) p)) ∧
    ∀ regs : List Nat,
      updateRegister regs (DecodeHash (EncodeHash hash p) p).1 (DecodeHash (EncodeHash hash p) p).2 =
        updateRegister regs (denseIndex hash p) (denseRank hash p) := by
  obtain ⟨_, hhi⟩ := hp
  have h := decode_encode hash p hhi
  refine ⟨h, fun regs => ?_⟩
  rw [h]

/-- Witness of C2 at a hash whose low 60 bits are zero, `p = 4`. -/
theorem DecodeHash_EncodeHash_witness :
    (4 ≤ 4 ∧ 4 ≤ 25) ∧
    DecodeHash (EncodeHash (3 * 2 ^ 60) 4) 4 =
      (SliceUint64 (3 * 2 ^ 60) 63 (u8sub 64 4),
       LeadingBitUint64 (shl64 (SliceUint64 (3 * 2 ^ 60) (u8sub 63 4) 0) 4)) :=
  ⟨by decide, (DecodeHash_EncodeHash (3 * 2 ^ 60) 4 (by decide)).1⟩

end Encoding


/-! ## Reachable states -/

section Invariant

variable {F : Type}

open SparseList

theorem insertEntry_mem {a e : SparseEntry} :
    ∀ {l : List SparseEntry}, a ∈ insertEntry e l → a = e ∨ a ∈ l := by
  intro l
  induction l with
  | nil =>
    intro h
    simp [insertEntry] at h
    exact Or.inl h
  | cons x xs ih =>
    intro h
    unfold insertEntry at h
    split at h
    · simpa using h
    · split at h
      · split at h
        · rcases List.mem_cons.mp h with h1 | h1
          · exact Or.inl h1
          · exact Or.inr (List.mem_cons_of_mem _ h1)
        · exact Or.inr h
      · rcases List.mem_cons.mp h with h1 | h1
        · exact Or.inr (h1 ▸ List.mem_cons_self _ _)
        · rcases ih h1 with h2 | h2
          · exact Or.inl h2
          · exact Or.inr (List.mem_cons_of_mem _ h2)

theorem foldl_insertEntry_mem {a : SparseEntry} (t : List SparseEntry) :
    ∀ {l : List SparseEntry}, a ∈ t.foldl (fun acc e => insertEntry e acc) l → a ∈ t ∨ a ∈ l := by
  induction t with
  | nil => intro l h; exact Or.inr h
  | cons e t ih =>
    intro l h
    rw [List.foldl_cons] at h
    rcases ih h with h1 | h1
    · exact Or.inl (List.mem_cons_of_mem _ h1)
    · rcases insertEntry_mem h1 with h2 | h2
      · exact Or.inl (h2 ▸ List.mem_cons_self _ _)
      · exact Or.inr h2

/-- The rank that the dense path computes is at most `64-p`, or is the
sentinel `64` of a hash whose low `64-p` bits are all zero. -/
theorem denseRank_range (hash p : Nat) (hp : p ≤ 63) :
    denseRank hash p ≤ 64 - p ∨ denseRank hash p = 64 := by
  unfold denseRank
  rw [u8sub_of_le (by decide) hp]
  unfold SliceUint64
  have e : 63 - p + 1 = 64 - p := by omega
  rw [e, Nat.pow_zero, Nat.div_one]
  have hy : hash % 2 ^ 64 % 2 ^ (64 - p) < 2 ^ (64 - p) := Nat.mod_lt _ (Nat.two_pow_pos _)
  generalize hash % 2 ^ 64 % 2 ^ (64 - p) = y at hy
  rw [shl64_of_lt (by omega) hy]
  by_cases hy0 : y = 0
  · subst hy0
    right
    simp [LeadingBitUint64_zero]
  · left
    rw [LeadingBitUint64_shift hy0 (by omega) hy]
    omega

theorem denseRank_pos (hash p : Nat) (hp : p ≤ 63) : 1 ≤ denseRank hash p := by
  unfold denseRank
  rw [u8sub_of_le (by decide) hp]
  unfold SliceUint64
  have e : 63 - p + 1 = 64 - p := by omega
  rw [e, Nat.pow_zero, Nat.div_one]
  have hy : hash % 2 ^ 64 % 2 ^ (64 - p) < 2 ^ (64 - p) := Nat.mod_lt _ (Nat.two_pow_pos _)
  generalize hash % 2 ^ 64 % 2 ^ (64 - p) = y at hy
  rw [shl64_of_lt (by omega) hy]
  by_cases hy0 : y = 0
  · subst hy0
    simp [LeadingBitUint64_zero]
  · have hlog : Nat.log2 y < 64 - p := (Nat.log2_lt hy0).mpr hy
    rw [LeadingBitUint64_shift hy0 (by omega) hy]
    omega

/-- The loop of `toNormal` on a register array of `n` entries, over entries
whose decoded index is below `n`: it runs to its end, keeps the length, lowers
no register, leaves in every register its old value or a decoded rank, and
leaves at the index of every entry at least the rank of that entry. -/
theorem fillRegisters_spec (p n : Nat) :
    ∀ (l : List SparseEntry) (regs : List Nat), regs.length = n →
      (∀ e ∈ l, (DecodeHash e p).1 < n) →
      ∃ regs1, fillRegisters p l regs = some regs1 ∧ regs1.length = n ∧
        (∀ j, regs.getD j 0 ≤ regs1.getD j 0) ∧
        (∀ r ∈ regs1, r ∈ regs ∨ ∃ e ∈ l, r = (DecodeHash e p).2) ∧
        (∀ e ∈ l, (DecodeHash e p).2 ≤ regs1.getD (DecodeHash e p).1 0) := by
  intro l
  induction l with
  | nil =>
    intro regs hlen _
    exact ⟨regs, rfl, hlen, fun _ => le_refl _, fun r hr => Or.inl hr, fun e he => by cases he⟩
  | cons e l ih =>
    intro regs hlen hidx
    have hi : (DecodeHash e p).1 < regs.length := by
      rw [hlen]
      exact hidx e (List.mem_cons_self _ _)
    have hup := updateRegister_total (DecodeHash e p).2 hi
    obtain ⟨regs1, hfill, hlen1, hmono1, hmem1, hge1⟩ :=
      ih (regs.set (DecodeHash e p).1 (max (regs.getD (DecodeHash e p).1 0) (DecodeHash e p).2))
        (by rw [List.length_set]; exact hlen)
        (fun e1 he1 => hidx e1 (List.mem_cons_of_mem _ he1))
    refine ⟨regs1, ?_, hlen1, ?_, ?_, ?_⟩
    · unfold fillRegisters
      rw [hup]
      exact hfill
    · intro j
      exact le_trans (getD_set_max_ge regs _ _ j) (hmono1 j)
    · intro r hr
      rcases hmem1 r hr with h1 | ⟨e1, he1, h1⟩
      · rcases List.mem_or_eq_of_mem_set h1 with h2 | h2
        · exact Or.inl h2
        · rcases max_cases (regs.getD (DecodeHash e p).1 0) (DecodeHash e p).2 with h3 | h3
          · left
            rw [h2, h3.1, List.getD_eq_getElem?_getD, List.getElem?_eq_getElem hi]
            exact List.getElem_mem _
          · right
            exact ⟨e, List.mem_cons_self _ _, by rw [h2, h3.1]⟩
      · exact Or.inr ⟨e1, List.mem_cons_of_mem _ he1, h1⟩
    · intro e1 he1
      rcases List.mem_cons.mp he1 with h1 | h1
      · subst h1
        refine le_trans ?_ (hmono1 _)
        rw [List.getD_eq_getElem?_getD, List.getElem?_set_self hi]
        exact le_max_right _ _
      · exact hge1 e1 h1

end Invariant


section Steps

variable {F : Type}

open SparseList

theorem decode_index_lt (x p : Nat) (hp : p ≤ 25) :
    (DecodeHash (EncodeHash x p) p).1 < 2 ^ p := by
  rw [decode_encode x p hp]
  exact denseIndex_lt x p (by omega)

theorem decode_rank_range (x p : Nat) (hp : p ≤ 25) :
    (DecodeHash (EncodeHash x p) p).2 ≤ 64 - p ∨ (DecodeHash (EncodeHash x p) p).2 = 64 := by
  rw [decode_encode x p hp]
  exact denseRank_range x p (by omega)

/-- The entries of a merged container are entries of the two containers. -/
theorem merge_enc {sl tmp : SparseList} {p : Nat}
    (hs : ∀ e ∈ sl.Data, ∃ x, e = EncodeHash x p) (ht : ∀ e ∈ tmp.Data, ∃ x, e = EncodeHash x p) :
    ∀ e ∈ (sl.Merge tmp).1.Data, ∃ x, e = EncodeHash x p := by
  intro e he
  rcases foldl_insertEntry_mem tmp.Data he with h1 | h1
  · exact ht e h1
  · exact hs e h1

/-- The method `toNormal` on a state whose entries are encoded hashes: it runs to
its end, and the registers it leaves. -/
theorem toNormal_spec (h : HLL F) (hP : h.P ≤ 25) (hm1 : h.m1 = 2 ^ h.P)
    (hs : ∀ e ∈ h.sparseList.Data, ∃ x, e = EncodeHash x h.P)
    (ht : ∀ e ∈ h.tempSet.Data, ∃ x, e = EncodeHash x h.P) :
    ∃ regs, toNormal h = some
        { h with format := NORMAL, registers := regs,
                 sparseList := (h.sparseList.Merge h.tempSet).1.Clear,
                 tempSet := (h.sparseList.Merge h.tempSet).2 } ∧
      regs.length = 2 ^ h.P ∧
      (∀ r ∈ regs, r ≤ 64 - h.P ∨ r = 64) ∧
      (∀ e ∈ (h.sparseList.Merge h.tempSet).1.Data,
        (DecodeHash e h.P).2 ≤ regs.getD (DecodeHash e h.P).1 0) := by
  have henc := merge_enc hs ht
  obtain ⟨regs, hfill, hlen, _, hmem, hge⟩ :=
    fillRegisters_spec h.P (2 ^ h.P) (h.sparseList.Merge h.tempSet).1.Data
      (List.replicate h.m1 0) (by rw [List.length_replicate, hm1])
      (fun e he => by
        obtain ⟨x, rfl⟩ := henc e he
        exact decode_index_lt x h.P hP)
  refine ⟨regs, ?_, hlen, ?_, hge⟩
  · unfold toNormal
    simp only [hfill, Option.map_some']
  · intro r hr
    rcases hmem r hr with h1 | ⟨e, he, h1⟩
    · left
      rw [List.eq_of_mem_replicate h1]
      omega
    · obtain ⟨x, rfl⟩ := henc e he
      rw [h1]
      exact decode_rank_range x h.P hP

theorem addSparse_eq (h : HLL F) (hash : Nat) :
    addSparse h hash =
      if (h.tempSet.Add (EncodeHash hash h.P)).Full then
        if (h.sparseList.Merge (h.tempSet.Add (EncodeHash hash h.P))).1.Full then
          toNormal { h with
            tempSet := (h.sparseList.Merge (h.tempSet.Add (EncodeHash hash h.P))).2,
            sparseList := (h.sparseList.Merge (h.tempSet.Add (EncodeHash hash h.P))).1 }
        else some { h with
            tempSet := (h.sparseList.Merge (h.tempSet.Add (EncodeHash hash h.P))).2,
            sparseList := (h.sparseList.Merge (h.tempSet.Add (EncodeHash hash h.P))).1 }
      else some { h with tempSet := h.tempSet.Add (EncodeHash hash h.P) } := rfl

theorem add_enc {tmp : SparseList} {p : Nat} (hash : Nat)
    (ht : ∀ e ∈ tmp.Data, ∃ x, e = EncodeHash x p) :
    ∀ e ∈ (tmp.Add (EncodeHash hash p)).Data, ∃ x, e = EncodeHash x p := by
  intro e he
  rcases List.mem_append.mp he with h1 | h1
  · exact ht e h1
  · exact ⟨hash, List.mem_singleton.mp h1⟩

/-- The method `addNormal` keeps the invariant. -/
theorem addNormal_inv {h h1 : HLL F} {hash : Nat} (hinv : Inv h)
    (hadd : addNormal h hash = some h1) : Inv h1 := by
  rw [(addNormal_spec hadd).2]
  refine { hinv with shape := ?_, ranks := ?_ }
  · intro hf
    simp only [List.length_set]
    exact hinv.shape hf
  · intro r hr
    rcases List.mem_or_eq_of_mem_set hr with h2 | h2
    · exact hinv.ranks r h2
    · rcases max_cases (h.registers.getD (denseIndex hash h.P) 0) (denseRank hash h.P) with h3 | h3
      · rw [h2, h3.1, List.getD_eq_getElem?_getD,
          List.getElem?_eq_getElem (addNormal_spec hadd).1]
        exact hinv.ranks _ (List.getElem_mem _)
      · rw [h2, h3.1]
        exact denseRank_range hash h.P (by have := hinv.p_hi; omega)

/-- The method `addSparse` on a state of the invariant runs to its end and keeps
the invariant. -/
theorem addSparse_inv (h : HLL F) (hash : Nat) (hinv : Inv h) :
    ∃ h1, addSparse h hash = some h1 ∧ Inv h1 := by
  have ht1 := add_enc hash hinv.temp_enc
  have hm := merge_enc hinv.sparse_enc ht1
  rw [addSparse_eq]
  by_cases hfull : (h.tempSet.Add (EncodeHash hash h.P)).Full = true
  · rw [if_pos hfull]
    by_cases hfull2 : (h.sparseList.Merge (h.tempSet.Add (EncodeHash hash h.P))).1.Full = true
    · rw [if_pos hfull2]
      obtain ⟨regs, htn, hlen, hr, _⟩ := toNormal_spec
        { h with
            tempSet := (h.sparseList.Merge (h.tempSet.Add (EncodeHash hash h.P))).2,
            sparseList := (h.sparseList.Merge (h.tempSet.Add (EncodeHash hash h.P))).1 }
        hinv.p_hi hinv.m1_eq hm ht1
      refine ⟨_, htn, ?_⟩
      exact
        { p_lo := hinv.p_lo, p_hi := hinv.p_hi, m1_eq := hinv.m1_eq, m2_eq := hinv.m2_eq,
          cap_eq := hinv.cap_eq, format_cases := Or.inr rfl, shape := fun _ => hlen,
          ranks := hr, temp_enc := ht1,
          sparse_enc := fun e he => (List.not_mem_nil e he).elim }
    · rw [if_neg hfull2]
      refine ⟨_, rfl, ?_⟩
      exact
        { p_lo := hinv.p_lo, p_hi := hinv.p_hi, m1_eq := hinv.m1_eq, m2_eq := hinv.m2_eq,
          cap_eq := hinv.cap_eq, format_cases := hinv.format_cases, shape := hinv.shape,
          ranks := hinv.ranks, temp_enc := ht1, sparse_enc := hm }
  · rw [if_neg hfull]
    refine ⟨_, rfl, ?_⟩
    exact { hinv with temp_enc := ht1 }

/-- The method `Add` on a state of the invariant runs to its end and keeps the
invariant. -/
theorem Add_inv (h : HLL F) (value : String) (hinv : Inv h) :
    ∃ h1, Add h value = some h1 ∧ Inv h1 := by
  rcases hinv.format_cases with hf | hf
  · have hne : h.format ≠ NORMAL := by rw [hf]; decide
    unfold Add
    simp only [if_neg hne, if_pos hf]
    exact addSparse_inv h _ hinv
  · unfold Add
    simp only [if_pos hf]
    obtain ⟨h1, hadd⟩ := addNormal_total h (h.Hasher value % 2 ^ 64)
      ⟨hinv.p_lo, hinv.p_hi, hinv.shape hf⟩
    exact ⟨h1, hadd, addNormal_inv hinv hadd⟩

end Steps


section Reach

variable {F : Type} [LinearOrderedField F]

open SparseList

theorem eq_some_getD {α : Type} {o : Option α} (d : α) (h : o.isSome = true) :
    o = some (o.getD d) := by
  cases o with
  | none => cases h
  | some a => rfl

theorem NewHLL_inv {hash128 : String → List Nat} {p : Nat} {maxSparseSetSize : Int} {h : HLL F}
    (hnew : NewHLL hash128 p maxSparseSetSize = .ok h) : Inv h := by
  have hp : 4 ≤ p ∧ p ≤ 25 := by
    by_contra hn
    unfold NewHLL at hnew
    rw [if_pos (by omega)] at hnew
    cases hnew
  rw [NewHLL_eq hash128 p maxSparseSetSize hp.1 hp.2] at hnew
  cases hnew
  exact
    { p_lo := hp.1, p_hi := hp.2, m1_eq := rfl, m2_eq := rfl, cap_eq := rfl,
      format_cases := Or.inl rfl, shape := fun hf => absurd hf (show SPARSE ≠ NORMAL by decide),
      ranks := fun r hr => (List.not_mem_nil r hr).elim,
      temp_enc := fun e he => (List.not_mem_nil e he).elim,
      sparse_enc := fun e he => (List.not_mem_nil e he).elim }

theorem Cardinality_inv (env : NumEnv F) (h : HLL F) (hinv : Inv h) :
    Inv (Cardinality env h).2 := by
  rcases hinv.format_cases with hf | hf
  · have hne : h.format ≠ NORMAL := by rw [hf]; decide
    unfold Cardinality
    simp only [if_neg hne, if_pos hf]
    exact
      { p_lo := hinv.p_lo, p_hi := hinv.p_hi, m1_eq := hinv.m1_eq, m2_eq := hinv.m2_eq,
        cap_eq := hinv.cap_eq, format_cases := hinv.format_cases, shape := hinv.shape,
        ranks := hinv.ranks, temp_enc := hinv.temp_enc,
        sparse_enc := merge_enc hinv.sparse_enc hinv.temp_enc }
  · unfold Cardinality
    simp only [if_pos hf]
    exact hinv

theorem step_inv (env : NumEnv F) (h : HLL F) (c : Call) (hinv : Inv h) :
    ∃ h1, step env h c = some h1 ∧ Inv h1 := by
  cases c with
  | add value => exact Add_inv h value hinv
  | cardinality => exact ⟨_, rfl, Cardinality_inv env h hinv⟩

/-- Every reachable state has the invariant. -/
theorem Reachable.inv {env : NumEnv F} {h : HLL F} (hr : Reachable env h) : Inv h := by
  induction hr with
  | init hash128 p maxSparseSetSize h hnew => exact NewHLL_inv hnew
  | setHasher h f _ ih => exact { ih with }
  | step h h1 c _ hstep ih =>
    obtain ⟨h2, hstep2, hinv2⟩ := step_inv env h c ih
    rw [hstep] at hstep2
    cases hstep2
    exact hinv2

theorem Reachable.run {env : NumEnv F} (cs : List Call) :
    ∀ {h h1 : HLL F}, Reachable env h → run env h cs = some h1 → Reachable env h1 := by
  induction cs with
  | nil =>
    intro h h1 hr hrun
    cases hrun
    exact hr
  | cons c cs ih =>
    intro h h1 hr hrun
    unfold Gohll.run at hrun
    cases hstep : Gohll.step env h c with
    | none => simp [hstep] at hrun
    | some h2 =>
      simp only [hstep] at hrun
      exact ih (Reachable.step h h2 c hr hstep) hrun

theorem sentinelStart_reachable : Reachable exampleEnv sentinelStart :=
  Reachable.setHasher _ (fun s => s.length * 2 ^ 39)
    (Reachable.init (fun _ => []) 4 96 _ (NewHLL_eq (fun _ => []) 4 96 (by decide) (by decide)))

set_option maxRecDepth 100000 in
theorem sentinelDense_run :
    Gohll.run exampleEnv sentinelStart sentinelCalls = some sentinelDense :=
  eq_some_getD sentinelStart (by decide)

set_option maxRecDepth 100000 in
theorem sentinelFinal_add : Add sentinelDense (ofLength 0) = some sentinelFinal :=
  eq_some_getD sentinelDense (by decide)

theorem sentinelFinal_reachable : Reachable exampleEnv sentinelFinal :=
  Reachable.step sentinelDense sentinelFinal (Call.add (ofLength 0))
    (Reachable.run sentinelCalls sentinelStart_reachable sentinelDense_run) sentinelFinal_add

set_option maxRecDepth 100000 in
/-- Counterexample to C5 as stated: 96 values promote the estimator of precision
4, with register 0 at 21; then `Add` of a value whose hash is 0 (its low 60 bits
are all zero) runs `addNormal`, which stores the sentinel 64 in register 0,
above `64 - 4 + 1 = 61`. -/
theorem register_bound_counterexample :
    Reachable exampleEnv sentinelFinal ∧
    sentinelDense.format = NORMAL ∧ sentinelDense.registers = 21 :: List.replicate 15 0 ∧
    sentinelDense.Hasher (ofLength 0) = 0 ∧
    Add sentinelDense (ofLength 0) = some sentinelFinal ∧
    sentinelFinal.format = NORMAL ∧ sentinelFinal.P = 4 ∧
    sentinelFinal.registers = 64 :: List.replicate 15 0 ∧
    ¬ (∀ r ∈ sentinelFinal.registers, r ≤ 64 - sentinelFinal.P + 1) := by
  have hregs : sentinelFinal.registers = 64 :: List.replicate 15 0 := by decide
  have hP : sentinelFinal.P = 4 := by decide
  refine ⟨sentinelFinal_reachable, by decide, by decide, by decide, sentinelFinal_add,
    by decide, hP, hregs, fun hall => ?_⟩
  have := hall 64 (by rw [hregs]; exact List.mem_cons_self _ _)
  rw [hP] at this
  omega

/-- C5, amended: in every dense state reachable from a successful construction
the register array has `2^p` entries and every register value is at most
`64-p`, or is `64`, the sentinel that `LeadingBitUint64` returns for a hash
whose low `64-p` bits are all zero. -/
theorem register_bound (env : NumEnv F) (h : HLL F) (hr : Reachable env h)
    (hf : h.format = NORMAL) :
    h.registers.length = 2 ^ h.P ∧ ∀ r ∈ h.registers, r ≤ 64 - h.P ∨ r = 64 :=
  ⟨hr.inv.shape hf, hr.inv.ranks⟩

set_option maxRecDepth 100000 in
/-- Witness of the amended C5 on the promoted example estimator. -/
theorem register_bound_witness :
    Reachable exampleEnv sentinelFinal ∧ sentinelFinal.format = NORMAL ∧
    sentinelFinal.registers.length = 2 ^ sentinelFinal.P ∧
    ∀ r ∈ sentinelFinal.registers, r ≤ 64 - sentinelFinal.P ∨ r = 64 :=
  ⟨sentinelFinal_reachable, by decide,
    register_bound exampleEnv sentinelFinal sentinelFinal_reachable (by decide)⟩

end Reach


/-! ## Merging the write buffer into the sparse container -/

section Merging

variable {F : Type}

open SparseList

/-- The sequence of entries that a merge of the write buffer into the sparse
container leaves in the container. -/
theorem merge_data (sl tmp : SparseList) :
    (sl.Merge tmp).1.Data = tmp.Data.foldl (fun acc e => insertEntry e acc) sl.Data := rfl

theorem merge_snd (sl tmp : SparseList) : (sl.Merge tmp).2 = tmp := rfl

theorem merge_maxSize (sl tmp : SparseList) : (sl.Merge tmp).1.MaxSize = sl.MaxSize := rfl

theorem insertEntry_idem (e : SparseEntry) :
    ∀ l : List SparseEntry, insertEntry e (insertEntry e l) = insertEntry e l := by
  intro l
  induction l with
  | nil => simp [insertEntry]
  | cons x xs ih =>
    by_cases h1 : e.index25 < x.index25
    · simp [insertEntry, h1]
    · by_cases h2 : e.index25 = x.index25
      · by_cases h3 : x.rank25 < e.rank25
        · simp [insertEntry, h1, h2, h3]
        · simp [insertEntry, h1, h2, h3]
      · simp [insertEntry, h1, h2, ih]

theorem insertEntry_mem_ge (e : SparseEntry) :
    ∀ l : List SparseEntry,
      ∃ e1 ∈ insertEntry e l, e1.index25 = e.index25 ∧ e.rank25 ≤ e1.rank25 := by
  intro l
  induction l with
  | nil => exact ⟨e, by simp [insertEntry], rfl, le_refl _⟩
  | cons x xs ih =>
    by_cases h1 : e.index25 < x.index25
    · exact ⟨e, by simp [insertEntry, h1], rfl, le_refl _⟩
    · by_cases h2 : e.index25 = x.index25
      · by_cases h3 : x.rank25 < e.rank25
        · exact ⟨e, by simp [insertEntry, h1, h2, h3], rfl, le_refl _⟩
        · exact ⟨x, by simp [insertEntry, h1, h2, h3], h2.symm, not_lt.mp h3⟩
      · obtain ⟨e1, he1, hi, hr⟩ := ih
        exact ⟨e1, by simp [insertEntry, h1, h2, he1], hi, hr⟩

/-- An entry that has in a sequence an entry of its bucket with at least its
rank still has one after an insertion. -/
theorem insertEntry_dominated (e a : SparseEntry) :
    ∀ l : List SparseEntry,
      (∃ x ∈ l, x.index25 = a.index25 ∧ a.rank25 ≤ x.rank25) →
      ∃ x ∈ insertEntry e l, x.index25 = a.index25 ∧ a.rank25 ≤ x.rank25 := by
  intro l
  induction l with
  | nil =>
    rintro ⟨x, hx, _⟩
    cases hx
  | cons y ys ih =>
    rintro ⟨x, hx, hxi, hxr⟩
    unfold insertEntry
    by_cases h1 : e.index25 < y.index25
    · rw [if_pos h1]
      exact ⟨x, List.mem_cons_of_mem _ hx, hxi, hxr⟩
    · rw [if_neg h1]
      by_cases h2 : e.index25 = y.index25
      · rw [if_pos h2]
        rcases List.mem_cons.mp hx with rfl | hx
        · by_cases h3 : x.rank25 < e.rank25
          · rw [if_pos h3]
            exact ⟨e, List.mem_cons_self _ _, h2.trans hxi, le_trans hxr (le_of_lt h3)⟩
          · rw [if_neg h3]
            exact ⟨x, List.mem_cons_self _ _, hxi, hxr⟩
        · exact ⟨x, List.mem_cons_of_mem _ hx, hxi, hxr⟩
      · rw [if_neg h2]
        rcases List.mem_cons.mp hx with rfl | hx
        · exact ⟨x, List.mem_cons_self _ _, hxi, hxr⟩
        · obtain ⟨z, hz, hzi, hzr⟩ := ih ⟨x, hx, hxi, hxr⟩
          exact ⟨z, List.mem_cons_of_mem _ hz, hzi, hzr⟩

theorem foldl_insertEntry_dominated (a : SparseEntry) (t : List SparseEntry) :
    ∀ l : List SparseEntry,
      (∃ x ∈ l, x.index25 = a.index25 ∧ a.rank25 ≤ x.rank25) →
      ∃ x ∈ t.foldl (fun acc e => insertEntry e acc) l,
        x.index25 = a.index25 ∧ a.rank25 ≤ x.rank25 := by
  induction t with
  | nil => intro l h; exact h
  | cons e t ih =>
    intro l h
    rw [List.foldl_cons]
    exact ih _ (insertEntry_dominated e a l h)

/-- After a merge every entry of the buffer has in the container an entry of
its bucket with at least its rank. -/
theorem foldl_insertEntry_covers (t : List SparseEntry) :
    ∀ (l : List SparseEntry) (a : SparseEntry), a ∈ t →
      ∃ x ∈ t.foldl (fun acc e => insertEntry e acc) l,
        x.index25 = a.index25 ∧ a.rank25 ≤ x.rank25 := by
  induction t with
  | nil => intro l a ha; cases ha
  | cons e t ih =>
    intro l a ha
    rw [List.foldl_cons]
    rcases List.mem_cons.mp ha with rfl | ha
    · exact foldl_insertEntry_dominated a t _ (insertEntry_mem_ge a l)
    · exact ih _ a ha

theorem insertEntry_sorted (e : SparseEntry) :
    ∀ l : List SparseEntry, l.Pairwise (fun a b => a.index25 < b.index25) →
      (insertEntry e l).Pairwise (fun a b => a.index25 < b.index25) := by
  intro l
  induction l with
  | nil => intro _; simp [insertEntry]
  | cons x xs ih =>
    intro hp
    obtain ⟨hx, hxs⟩ := List.pairwise_cons.mp hp
    unfold insertEntry
    by_cases h1 : e.index25 < x.index25
    · rw [if_pos h1]
      refine List.pairwise_cons.mpr ⟨fun y hy => ?_, hp⟩
      rcases List.mem_cons.mp hy with rfl | hy
      · exact h1
      · exact lt_trans h1 (hx y hy)
    · rw [if_neg h1]
      by_cases h2 : e.index25 = x.index25
      · rw [if_pos h2]
        refine List.pairwise_cons.mpr ⟨fun y hy => ?_, hxs⟩
        by_cases h3 : x.rank25 < e.rank25
        · rw [if_pos h3, h2]
          exact hx y hy
        · rw [if_neg h3]
          exact hx y hy
      · rw [if_neg h2]
        refine List.pairwise_cons.mpr ⟨fun y hy => ?_, ih hxs⟩
        rcases insertEntry_mem hy with rfl | hy
        · omega
        · exact hx y hy

theorem foldl_insertEntry_sorted (t : List SparseEntry) :
    ∀ l : List SparseEntry, l.Pairwise (fun a b => a.index25 < b.index25) →
      (t.foldl (fun acc e => insertEntry e acc) l).Pairwise
        (fun a b => a.index25 < b.index25) := by
  induction t with
  | nil => intro l h; exact h
  | cons e t ih =>
    intro l h
    rw [List.foldl_cons]
    exact ih _ (insertEntry_sorted e l h)

/-- Inserting into a sorted sequence an entry whose bucket is there with at
least its rank changes nothing. -/
theorem insertEntry_of_dominated (e : SparseEntry) :
    ∀ l : List SparseEntry, l.Pairwise (fun a b => a.index25 < b.index25) →
      (∃ x ∈ l, x.index25 = e.index25 ∧ e.rank25 ≤ x.rank25) → insertEntry e l = l := by
  intro l
  induction l with
  | nil =>
    rintro _ ⟨x, hx, _⟩
    cases hx
  | cons y ys ih =>
    rintro hp ⟨x, hx, hxi, hxr⟩
    obtain ⟨hy, hys⟩ := List.pairwise_cons.mp hp
    unfold insertEntry
    rcases List.mem_cons.mp hx with rfl | hx
    · rw [if_neg (by omega), if_pos hxi.symm, if_neg (by omega)]
    · have hlt := hy x hx
      rw [if_neg (by omega), if_neg (by omega), ih hys ⟨x, hx, hxi, hxr⟩]

theorem foldl_insertEntry_of_dominated (t : List SparseEntry) :
    ∀ l : List SparseEntry, l.Pairwise (fun a b => a.index25 < b.index25) →
      (∀ a ∈ t, ∃ x ∈ l, x.index25 = a.index25 ∧ a.rank25 ≤ x.rank25) →
      t.foldl (fun acc e => insertEntry e acc) l = l := by
  induction t with
  | nil => intro l _ _; rfl
  | cons e t ih =>
    intro l hs hd
    rw [List.foldl_cons, insertEntry_of_dominated e l hs (hd e (List.mem_cons_self _ _))]
    exact ih l hs (fun a ha => hd a (List.mem_cons_of_mem _ ha))

/-- Merging the same buffer a second time into a sorted container changes
nothing. -/
theorem merge_again (sl tmp : SparseList)
    (hs : sl.Data.Pairwise (fun a b => a.index25 < b.index25)) :
    ((sl.Merge tmp).1.Merge tmp).1 = (sl.Merge tmp).1 := by
  have h := foldl_insertEntry_of_dominated tmp.Data (sl.Merge tmp).1.Data
    (foldl_insertEntry_sorted tmp.Data sl.Data hs)
    (fun a ha => foldl_insertEntry_covers tmp.Data sl.Data a ha)
  unfold SparseList.Merge at h ⊢
  simp only at h ⊢
  rw [h]

end Merging


section MergedLength

open SparseList

theorem insertEntry_index_mem (e : SparseEntry) (n : Nat) :
    ∀ l : List SparseEntry,
      n ∈ (insertEntry e l).map (fun a => a.index25) ↔
        n = e.index25 ∨ n ∈ l.map (fun a => a.index25) := by
  intro l
  induction l with
  | nil => simp [insertEntry]
  | cons x xs ih =>
    unfold insertEntry
    by_cases h1 : e.index25 < x.index25
    · rw [if_pos h1]
      simp
    · rw [if_neg h1]
      by_cases h2 : e.index25 = x.index25
      · rw [if_pos h2]
        by_cases h3 : x.rank25 < e.rank25
        · rw [if_pos h3]
          simp only [List.map_cons, List.mem_cons, h2]
          tauto
        · rw [if_neg h3]
          simp only [List.map_cons, List.mem_cons, h2]
          tauto
      · rw [if_neg h2]
        simp only [List.map_cons, List.mem_cons, ih]
        tauto

theorem foldl_insertEntry_index_mem (n : Nat) (t : List SparseEntry) :
    ∀ l : List SparseEntry,
      n ∈ (t.foldl (fun acc e => insertEntry e acc) l).map (fun a => a.index25) ↔
        n ∈ (l ++ t).map (fun a => a.index25) := by
  induction t with
  | nil => intro l; simp
  | cons e t ih =>
    intro l
    rw [List.foldl_cons, ih, List.map_append, List.mem_append, insertEntry_index_mem]
    simp only [List.map_append, List.map_cons, List.mem_append, List.mem_cons]
    tauto

/-- The length of a merged container that was sorted before the merge is the
number of distinct bucket indices of the container and the buffer. -/
theorem merge_length {sl tmp : SparseList}
    (hs : sl.Data.Pairwise (fun a b => a.index25 < b.index25)) :
    (sl.Merge tmp).1.Len = distinctIndices (sl.Data ++ tmp.Data) := by
  have hsorted := foldl_insertEntry_sorted tmp.Data sl.Data hs
  have hnodup : ((sl.Merge tmp).1.Data.map (fun a => a.index25)).Nodup := by
    rw [merge_data]
    unfold List.Nodup
    rw [List.pairwise_map]
    exact hsorted.imp (fun hab => Nat.ne_of_lt hab)
  unfold distinctIndices SparseList.Len
  rw [← List.card_toFinset, ← List.length_map (sl.Merge tmp).1.Data (fun a => a.index25),
    ← List.toFinset_card_of_nodup hnodup]
  congr 1
  ext n
  rw [List.mem_toFinset, List.mem_toFinset, merge_data, foldl_insertEntry_index_mem]

end MergedLength


/-! ## The steps of a sparse estimator -/

section SparseSteps

variable {F : Type}

open SparseList

theorem toNormal_eq_some {h h1 : HLL F} (htn : toNormal h = some h1) :
    ∃ regs, fillRegisters h.P (h.sparseList.Merge h.tempSet).1.Data
        (List.replicate h.m1 0) = some regs ∧
      h1 = { h with format := NORMAL, registers := regs,
                    sparseList := (h.sparseList.Merge h.tempSet).1.Clear,
                    tempSet := (h.sparseList.Merge h.tempSet).2 } := by
  unfold toNormal at htn
  simp only [Option.map_eq_some'] at htn
  obtain ⟨regs, hfill, rfl⟩ := htn
  exact ⟨regs, hfill, rfl⟩

theorem toNormal_fields {h h1 : HLL F} (htn : toNormal h = some h1) :
    h1.format = NORMAL ∧ h1.Hasher = h.Hasher ∧ h1.P = h.P ∧ h1.m2 = h.m2 := by
  obtain ⟨regs, _, rfl⟩ := toNormal_eq_some htn
  exact ⟨rfl, rfl, rfl, rfl⟩

/-- The three ways of `Add` on a sparse estimator: the entry is appended to the
write buffer, which is not full; or the full buffer is merged into the
container, and the container is not full; or the container is full after the
merge and the estimator is promoted: `toNormal` merges the buffer once more,
fills the registers from the container and clears the container.  The write
buffer keeps its entries in all three. -/
theorem Add_sparse_cases {h h1 : HLL F} {value : String} (hf : h.format = SPARSE)
    (hadd : Add h value = some h1) :
    ((h.tempSet.Add (EncodeHash (h.Hasher value % 2 ^ 64) h.P)).Full = false ∧
      h1 = { h with tempSet := h.tempSet.Add (EncodeHash (h.Hasher value % 2 ^ 64) h.P) }) ∨
    ((h.tempSet.Add (EncodeHash (h.Hasher value % 2 ^ 64) h.P)).Full = true ∧
      (h.sparseList.Merge (h.tempSet.Add (EncodeHash (h.Hasher value % 2 ^ 64) h.P))).1.Full
        = false ∧
      h1 = { h with
        tempSet := h.tempSet.Add (EncodeHash (h.Hasher value % 2 ^ 64) h.P),
        sparseList :=
          (h.sparseList.Merge (h.tempSet.Add (EncodeHash (h.Hasher value % 2 ^ 64) h.P))).1 }) ∨
    ((h.tempSet.Add (EncodeHash (h.Hasher value % 2 ^ 64) h.P)).Full = true ∧
      (h.sparseList.Merge (h.tempSet.Add (EncodeHash (h.Hasher value % 2 ^ 64) h.P))).1.Full
        = true ∧
      ∃ regs, fillRegisters h.P
          (((h.sparseList.Merge
              (h.tempSet.Add (EncodeHash (h.Hasher value % 2 ^ 64) h.P))).1).Merge
            (h.tempSet.Add (EncodeHash (h.Hasher value % 2 ^ 64) h.P))).1.Data
          (List.replicate h.m1 0) = some regs ∧
        h1 = { h with
          format := NORMAL, registers := regs,
          tempSet := h.tempSet.Add (EncodeHash (h.Hasher value % 2 ^ 64) h.P),
          sparseList :=
            (((h.sparseList.Merge
                (h.tempSet.Add (EncodeHash (h.Hasher value % 2 ^ 64) h.P))).1).Merge
              (h.tempSet.Add (EncodeHash (h.Hasher value % 2 ^ 64) h.P))).1.Clear }) := by
  have hne : h.format ≠ NORMAL := by rw [hf]; decide
  unfold Add at hadd
  simp only [if_neg hne, if_pos hf] at hadd
  rw [addSparse_eq] at hadd
  by_cases hfull : (h.tempSet.Add (EncodeHash (h.Hasher value % 2 ^ 64) h.P)).Full = true
  · rw [if_pos hfull] at hadd
    by_cases hfull2 : (h.sparseList.Merge
        (h.tempSet.Add (EncodeHash (h.Hasher value % 2 ^ 64) h.P))).1.Full = true
    · rw [if_pos hfull2] at hadd
      obtain ⟨regs, hfill, heq⟩ := toNormal_eq_some hadd
      exact Or.inr (Or.inr ⟨hfull, hfull2, regs, hfill, heq⟩)
    · rw [if_neg hfull2] at hadd
      cases hadd
      exact Or.inr (Or.inl ⟨hfull, by simpa using hfull2, rfl⟩)
  · rw [if_neg hfull] at hadd
    cases hadd
    exact Or.inl ⟨by simpa using hfull, rfl⟩

theorem Add_dense_eq {h h1 : HLL F} {value : String} (hf : h.format = NORMAL)
    (hadd : Add h value = some h1) : h1 = { h with registers := h1.registers } := by
  unfold Add at hadd
  simp only [if_pos hf] at hadd
  rw [(addNormal_spec hadd).2]

/-- The method `Add` keeps the sparse container sorted by bucket index. -/
theorem Add_sorted {h h1 : HLL F} {value : String}
    (hfc : h.format = SPARSE ∨ h.format = NORMAL)
    (hs : h.sparseList.Data.Pairwise (fun a b => a.index25 < b.index25))
    (hadd : Add h value = some h1) :
    h1.sparseList.Data.Pairwise (fun a b => a.index25 < b.index25) := by
  rcases hfc with hf | hf
  · rcases Add_sparse_cases hf hadd with ⟨_, heq⟩ | ⟨_, _, heq⟩ | ⟨_, _, regs, _, heq⟩
    · rw [heq]
      exact hs
    · rw [heq]
      exact foldl_insertEntry_sorted _ _ hs
    · rw [heq]
      exact List.Pairwise.nil
  · rw [Add_dense_eq hf hadd]
    exact hs

/-- The method `Add` keeps the capacity of the write buffer. -/
theorem Add_capacity {h h1 : HLL F} {value : String}
    (hfc : h.format = SPARSE ∨ h.format = NORMAL) (hadd : Add h value = some h1) :
    h1.tempSet.MaxSize = h.tempSet.MaxSize ∧ h1.MaxSparseSetSize = h.MaxSparseSetSize := by
  rcases hfc with hf | hf
  · rcases Add_sparse_cases hf hadd with ⟨_, heq⟩ | ⟨_, _, heq⟩ | ⟨_, _, regs, _, heq⟩
    · rw [heq]
      exact ⟨rfl, rfl⟩
    · rw [heq]
      exact ⟨rfl, rfl⟩
    · rw [heq]
      exact ⟨rfl, rfl⟩
  · rw [Add_dense_eq hf hadd]
    exact ⟨rfl, rfl⟩

variable [LinearOrderedField F]

theorem Cardinality_state (env : NumEnv F) (h : HLL F) :
    (Cardinality env h).2 =
      if h.format = SPARSE then
        { h with sparseList := (h.sparseList.Merge h.tempSet).1,
                 tempSet := (h.sparseList.Merge h.tempSet).2 }
      else h := by
  unfold Cardinality
  by_cases hn : h.format = NORMAL
  · have hs : h.format ≠ SPARSE := by rw [hn]; decide
    rw [if_pos hn, if_neg hs]
  · by_cases hs : h.format = SPARSE
    · rw [if_neg hn, if_pos hs, if_pos hs]
      rfl
    · rw [if_neg hn, if_neg hs, if_neg hs]

/-- In every reachable state the sparse container is sorted by bucket index,
without two entries of the same index. -/
theorem Reachable.sorted {env : NumEnv F} {h : HLL F} (hr : Reachable env h) :
    h.sparseList.Data.Pairwise (fun a b => a.index25 < b.index25) := by
  induction hr with
  | init hash128 p maxSparseSetSize h hnew =>
    have hp : 4 ≤ p ∧ p ≤ 25 := by
      by_contra hn
      unfold NewHLL at hnew
      rw [if_pos (by omega)] at hnew
      cases hnew
    rw [NewHLL_eq hash128 p maxSparseSetSize hp.1 hp.2] at hnew
    cases hnew
    exact List.Pairwise.nil
  | setHasher h f _ ih => exact ih
  | step h h1 c hr hstep ih =>
    cases c with
    | add value => exact Add_sorted hr.inv.format_cases ih hstep
    | cardinality =>
      have h1eq : h1 = (Cardinality env h).2 := by
        have := hstep
        simp only [Gohll.step] at this
        exact (Option.some.inj this).symm
      rw [h1eq, Cardinality_state]
      by_cases hs : h.format = SPARSE
      · rw [if_pos hs]
        exact foldl_insertEntry_sorted _ _ ih
      · rw [if_neg hs]
        exact ih

/-- In every reachable state the write buffer has the configured capacity. -/
theorem Reachable.capacity {env : NumEnv F} {h : HLL F} (hr : Reachable env h) :
    h.tempSet.MaxSize = h.MaxSparseSetSize := by
  induction hr with
  | init hash128 p maxSparseSetSize h hnew =>
    have hp : 4 ≤ p ∧ p ≤ 25 := by
      by_contra hn
      unfold NewHLL at hnew
      rw [if_pos (by omega)] at hnew
      cases hnew
    rw [NewHLL_eq hash128 p maxSparseSetSize hp.1 hp.2] at hnew
    cases hnew
    rfl
  | setHasher h f _ ih => exact ih
  | step h h1 c hr hstep ih =>
    cases c with
    | add value =>
      obtain ⟨h1c, h1m⟩ := Add_capacity hr.inv.format_cases hstep
      rw [h1c, h1m]
      exact ih
    | cardinality =>
      have h1eq : h1 = (Cardinality env h).2 := by
        have := hstep
        simp only [Gohll.step] at this
        exact (Option.some.inj this).symm
      rw [h1eq, Cardinality_state]
      by_cases hs : h.format = SPARSE
      · rw [if_pos hs]
        exact ih
      · rw [if_neg hs]
        exact ih

theorem run_inv (env : NumEnv F) (cs : List Call) :
    ∀ h : HLL F, Inv h → ∃ h1, run env h cs = some h1 ∧ Inv h1 := by
  induction cs with
  | nil => intro h hinv; exact ⟨h, rfl, hinv⟩
  | cons c cs ih =>
    intro h hinv
    obtain ⟨h2, hstep, hinv2⟩ := step_inv env h c hinv
    obtain ⟨h1, hrun, hinv1⟩ := ih h2 hinv2
    refine ⟨h1, ?_, hinv1⟩
    unfold run
    simp only [hstep]
    exact hrun

end SparseSteps


/-! ## The bound on the sparse container -/

section SparseBound

variable {F : Type}

open SparseList

/-- After `Add` a sparse estimator has fewer entries in its container than the
capacity, if it had before: the container is untouched, or was merged and found
not full, or the estimator is dense. -/
theorem Add_sparse_bound {h h1 : HLL F} {value : String}
    (hfc : h.format = SPARSE ∨ h.format = NORMAL)
    (hb : h.format = SPARSE → (h.sparseList.Len : Int) < h.sparseList.MaxSize)
    (hadd : Add h value = some h1) :
    h1.format = SPARSE → (h1.sparseList.Len : Int) < h1.sparseList.MaxSize := by
  intro hf1
  rcases hfc with hf | hf
  · rcases Add_sparse_cases hf hadd with ⟨_, heq⟩ | ⟨_, hnf, heq⟩ | ⟨_, _, regs, _, heq⟩
    · rw [heq]
      exact hb hf
    · rw [heq]
      simpa [SparseList.Full] using hnf
    · rw [heq] at hf1
      exact absurd hf1 (show NORMAL ≠ SPARSE by decide)
  · rw [Add_dense_eq hf hadd] at hf1
    exact absurd (hf.symm.trans hf1) (show NORMAL ≠ SPARSE by decide)

/-- What `Add` leaves in the container of an estimator that is sparse after it:
the container as it was, or the merge, with fewer entries than the capacity. -/
theorem Add_sparse_container {h h1 : HLL F} {value : String}
    (hfc : h.format = SPARSE ∨ h.format = NORMAL) (hadd : Add h value = some h1)
    (hf1 : h1.format = SPARSE) :
    h1.sparseList = h.sparseList ∨
      (h1.sparseList =
        (h.sparseList.Merge (h.tempSet.Add (EncodeHash (h.Hasher value % 2 ^ 64) h.P))).1 ∧
       (h1.sparseList.Len : Int) < h1.sparseList.MaxSize) := by
  rcases hfc with hf | hf
  · rcases Add_sparse_cases hf hadd with ⟨_, heq⟩ | ⟨_, hnf, heq⟩ | ⟨_, _, regs, _, heq⟩
    · rw [heq]
      exact Or.inl rfl
    · rw [heq]
      exact Or.inr ⟨rfl, by simpa [SparseList.Full] using hnf⟩
    · rw [heq] at hf1
      exact absurd hf1 (show NORMAL ≠ SPARSE by decide)
  · rw [Add_dense_eq hf hadd]
    exact Or.inl rfl

/-- An `Add` that merges and finds the container at its capacity or above
promotes the estimator. -/
theorem Add_promotes {h h1 : HLL F} {value : String} (hf : h.format = SPARSE)
    (hadd : Add h value = some h1)
    (hfull : (h.tempSet.Add (EncodeHash (h.Hasher value % 2 ^ 64) h.P)).Full = true)
    (hlen : (h.sparseList.Merge
        (h.tempSet.Add (EncodeHash (h.Hasher value % 2 ^ 64) h.P))).1.Full = true) :
    h1.format = NORMAL := by
  rcases Add_sparse_cases hf hadd with ⟨hnf, _⟩ | ⟨_, hnf, _⟩ | ⟨_, _, regs, _, heq⟩
  · rw [hfull] at hnf
    cases hnf
  · rw [hlen] at hnf
    cases hnf
  · rw [heq]

variable [LinearOrderedField F]

theorem run_adds_sparse_bound (env : NumEnv F) (values : List String) :
    ∀ (h : HLL F), Inv h →
      (h.format = SPARSE → (h.sparseList.Len : Int) < h.sparseList.MaxSize) →
      ∃ h1, run env h (values.map Call.add) = some h1 ∧ Inv h1 ∧
        (h1.format = SPARSE → (h1.sparseList.Len : Int) < h1.sparseList.MaxSize) := by
  induction values with
  | nil => intro h hinv hb; exact ⟨h, rfl, hinv, hb⟩
  | cons v vs ih =>
    intro h hinv hb
    obtain ⟨h2, hadd, hinv2⟩ := Add_inv h v hinv
    obtain ⟨h1, hrun, hinv1, hb1⟩ :=
      ih h2 hinv2 (Add_sparse_bound hinv.format_cases hb hadd)
    refine ⟨h1, ?_, hinv1, hb1⟩
    simp only [List.map_cons, run, step, hadd]
    exact hrun

/-- In every reachable sparse state whose write buffer has reached its
capacity, the container has the entries of the buffer merged into it and holds
fewer entries than its capacity. -/
theorem Reachable.absorbed {env : NumEnv F} {h : HLL F} (hr : Reachable env h) :
    h.format = SPARSE → h.tempSet.Full = true →
      (h.sparseList.Merge h.tempSet).1 = h.sparseList ∧
      (h.sparseList.Len : Int) < h.sparseList.MaxSize := by
  induction hr with
  | init hash128 p maxSparseSetSize h hnew =>
    have hp : 4 ≤ p ∧ p ≤ 25 := by
      by_contra hn
      unfold NewHLL at hnew
      rw [if_pos (by omega)] at hnew
      cases hnew
    rw [NewHLL_eq hash128 p maxSparseSetSize hp.1 hp.2] at hnew
    cases hnew
    intro _ _
    refine ⟨rfl, ?_⟩
    simp only [NewSparseList, SparseList.Len, List.length_nil]
    positivity
  | setHasher h f _ ih => exact ih
  | step h h1 c hr hstep ih =>
    intro hf1 hfull1
    cases c with
    | add value =>
      have hadd : Add h value = some h1 := hstep
      rcases hr.inv.format_cases with hf | hf
      · rcases Add_sparse_cases hf hadd with ⟨hnf, heq⟩ | ⟨_, hnf, heq⟩ | ⟨_, _, regs, _, heq⟩
        · rw [heq] at hfull1
          rw [hnf] at hfull1
          cases hfull1
        · rw [heq]
          exact ⟨merge_again _ _ hr.sorted, by simpa [SparseList.Full] using hnf⟩
        · rw [heq] at hf1
          exact absurd hf1 (show NORMAL ≠ SPARSE by decide)
      · rw [Add_dense_eq hf hadd] at hf1
        exact absurd (hf.symm.trans hf1) (show NORMAL ≠ SPARSE by decide)
    | cardinality =>
      have h1eq : h1 = (Cardinality env h).2 := by
        have := hstep
        simp only [Gohll.step] at this
        exact (Option.some.inj this).symm
      rw [Cardinality_state] at h1eq
      by_cases hs : h.format = SPARSE
      · rw [if_pos hs] at h1eq
        subst h1eq
        have hfull : h.tempSet.Full = true := hfull1
        obtain ⟨hab, hlt⟩ := ih hs hfull
        simp only [merge_snd]
        rw [hab]
        exact ⟨hab, hlt⟩
      · rw [if_neg hs] at h1eq
        subst h1eq
        exact absurd hf1 hs

theorem flushStart_reachable : Reachable exampleEnv flushStart :=
  Reachable.setHasher _ (fun s => s.length * 2 ^ 39)
    (Reachable.init (fun _ => []) 4 1 _ (NewHLL_eq (fun _ => []) 4 1 (by decide) (by decide)))

theorem flushOne_add : Add flushStart "a" = some flushOne :=
  eq_some_getD flushStart (by decide)

theorem flushMid_reachable : Reachable exampleEnv flushMid :=
  Reachable.step _ _ Call.cardinality
    (Reachable.step _ _ (Call.add "a") flushStart_reachable flushOne_add) rfl

set_option maxRecDepth 100000 in
theorem overflowFinal_run :
    run exampleEnv overflowStart (addCalls 97 ++ [Call.cardinality]) = some overflowFinal :=
  eq_some_getD overflowStart (by decide)

theorem overflowFinal_reachable : Reachable exampleEnv overflowFinal :=
  Reachable.run (addCalls 97 ++ [Call.cardinality])
    (Reachable.setHasher _ (fun s => s.length * 2 ^ 39)
      (Reachable.init (fun _ => []) 4 200 _
        (NewHLL_eq (fun _ => []) 4 200 (by decide) (by decide))))
    overflowFinal_run

set_option maxRecDepth 100000 in
/-- Counterexample to C10 as stated: with a write buffer of capacity 200, after
97 values of different buckets and one call of `Cardinality` the estimator of
precision 4 is still `SPARSE` and its sparse container holds 97 entries, more
than `6*m1 = 96`: `cardinalitySparse` merges the buffer and does not promote. -/
theorem sparse_container_bound_counterexample :
    Reachable exampleEnv overflowFinal ∧ overflowFinal.format = SPARSE ∧
    overflowFinal.sparseList.Len = 97 ∧ 6 * overflowFinal.m1 = 96 ∧
    ¬ (overflowFinal.sparseList.Len ≤ 6 * overflowFinal.m1) := by
  have h1 : overflowFinal.sparseList.Len = 97 := by decide
  have h2 : 6 * overflowFinal.m1 = 96 := by decide
  refine ⟨overflowFinal_reachable, by decide, h1, h2, ?_⟩
  omega

/-- C10, amended: in every reachable state in which the representation is
`SPARSE` and the write buffer has reached its capacity, the sparse container
holds fewer than `6*m1` entries.  From every reachable state `Add` returns; if
it leaves the estimator `SPARSE`, the container is as it was or is the merge
and holds fewer than `6*m1` entries, and an `Add` whose merge brings the
container to `6*m1` entries or more promotes the estimator.  So every sequence
of `Add` calls runs to its end and keeps the bound `< 6*m1`, which holds of the
fresh estimator: only the merge of `Cardinality` into the container, while the
write buffer is below its capacity, can take it above. -/
theorem sparse_container_bound (env : NumEnv F) (h : HLL F) (hr : Reachable env h)
    (values : List String) :
    (h.format = SPARSE → h.tempSet.Full = true → h.sparseList.Len < 6 * h.m1) ∧
    (∀ value : String, ∃ h1, Add h value = some h1 ∧
      (h1.format = SPARSE →
        h1.sparseList = h.sparseList ∨
        (h1.sparseList =
            (h.sparseList.Merge
              (h.tempSet.Add (EncodeHash (h.Hasher value % 2 ^ 64) h.P))).1 ∧
          h1.sparseList.Len < 6 * h1.m1)) ∧
      (h.format = SPARSE →
        (h.tempSet.Add (EncodeHash (h.Hasher value % 2 ^ 64) h.P)).Full = true →
        6 * h.m1 ≤ (h.sparseList.Merge
          (h.tempSet.Add (EncodeHash (h.Hasher value % 2 ^ 64) h.P))).1.Len →
        h1.format = NORMAL)) ∧
    (∃ h2, run env h (values.map Call.add) = some h2 ∧
      ((h.format = SPARSE → h.sparseList.Len < 6 * h.m1) →
        h2.format = SPARSE → h2.sparseList.Len < 6 * h2.m1)) ∧
    (∀ (hash128 : String → List Nat) (p : Nat) (maxSparseSetSize : Int) (h0 : HLL F)
        (f : String → Nat), NewHLL hash128 p maxSparseSetSize = .ok h0 →
      h = { h0 with Hasher := f } → h.format = SPARSE ∧ h.sparseList.Len < 6 * h.m1) := by
  have hinv := hr.inv
  have hcap : ∀ {g : HLL F}, Inv g → ∀ n : Nat,
      ((n : Int) < g.sparseList.MaxSize ↔ n < 6 * g.m1) := by
    intro g hg n
    rw [hg.cap_eq, hg.m1_eq]
    exact Nat.cast_lt
  refine ⟨fun hf hfull => (hcap hinv _).mp (hr.absorbed hf hfull).2, fun value => ?_, ?_, ?_⟩
  · obtain ⟨h1, hadd, hinv1⟩ := Add_inv h value hinv
    refine ⟨h1, hadd, fun hf1 => ?_, fun hf hfull hlen => ?_⟩
    · rcases Add_sparse_container hinv.format_cases hadd hf1 with hc | ⟨hc, hlt⟩
      · exact Or.inl hc
      · exact Or.inr ⟨hc, (hcap hinv1 _).mp hlt⟩
    · refine Add_promotes hf hadd hfull ?_
      simp only [SparseList.Full, decide_eq_true_eq]
      rw [merge_maxSize, hinv.cap_eq, ← hinv.m1_eq]
      exact_mod_cast hlen
  · obtain ⟨h2, hrun, hinv2⟩ := run_inv env (values.map Call.add) h hinv
    refine ⟨h2, hrun, fun hb hf2 => ?_⟩
    obtain ⟨h3, hrun3, _, hb3⟩ := run_adds_sparse_bound env values h hinv
      (fun hf => (hcap hinv _).mpr (hb hf))
    rw [hrun] at hrun3
    cases hrun3
    exact (hcap hinv2 _).mp (hb3 hf2)
  · intro hash128 p maxSparseSetSize h0 f hnew heq
    have hp : 4 ≤ p ∧ p ≤ 25 := by
      by_contra hn
      unfold NewHLL at hnew
      rw [if_pos (by omega)] at hnew
      cases hnew
    rw [NewHLL_eq hash128 p maxSparseSetSize hp.1 hp.2] at hnew
    cases hnew
    subst heq
    refine ⟨rfl, ?_⟩
    simp only [NewSparseList, SparseList.Len, List.length_nil]
    positivity

/-- Witness of the amended C10 on a state reached through `Cardinality`, with a
write buffer of capacity 1: each of the two `Add` calls merges the buffer into
the container, which holds three entries at the end. -/
theorem sparse_container_bound_witness :
    Reachable exampleEnv flushMid ∧
    run exampleEnv flushMid (["ab", "abc"].map Call.add) = some flushAfter ∧
    flushMid.sparseList.Len = 1 ∧ flushAfter.format = SPARSE ∧
    flushAfter.sparseList.Len = 3 ∧ flushAfter.sparseList.Len < 6 * flushAfter.m1 := by
  have hrun : run exampleEnv flushMid (["ab", "abc"].map Call.add) = some flushAfter :=
    eq_some_getD flushMid (by decide)
  obtain ⟨h2, hrun2, hb⟩ :=
    (sparse_container_bound exampleEnv flushMid flushMid_reachable ["ab", "abc"]).2.2.1
  rw [hrun] at hrun2
  cases hrun2
  exact ⟨flushMid_reachable, hrun, by decide, by decide, by decide,
    hb (fun _ => by decide) (by decide)⟩

end SparseBound


section PromotionExample

open SparseList

set_option maxRecDepth 100000 in
theorem promoteBefore_run :
    run exampleEnv sentinelStart (sentinelCalls.take 95) = some promoteBefore :=
  eq_some_getD sentinelStart (by decide)

theorem promoteBefore_reachable : Reachable exampleEnv promoteBefore :=
  Reachable.run (sentinelCalls.take 95) sentinelStart_reachable promoteBefore_run

set_option maxRecDepth 100000 in
theorem promote_facts :
    promoteBefore.format = SPARSE ∧ (Add promoteBefore (ofLength 96)).isSome = true ∧
    promoteAfter.format = NORMAL := by decide

end PromotionExample


/-! ## Adding a value again -/

section Again

variable {F : Type}

open SparseList

theorem encode_lowZero (x p : Nat) (hp : p ≤ 25) :
    (EncodeHash x p).lowZero = ((EncodeHash x p).index25 % 2 ^ (25 - p) == 0) := by
  have hsplit := two_pow_split p hp
  have h63 : u8sub 63 p = 63 - p := u8sub_of_le (by decide) (by omega)
  have e : 63 - p + 1 = 64 - p := by omega
  simp only [EncodeHash, SliceUint64, h63, e, Nat.mod_mod]
  rw [← hsplit, Nat.mod_mul_right_div_self]

theorem encode_rank25_range (x p : Nat) :
    (1 ≤ (EncodeHash x p).rank25 ∧ (EncodeHash x p).rank25 ≤ 39) ∨
      (EncodeHash x p).rank25 = 64 := by
  simp only [EncodeHash, SliceUint64, Nat.pow_zero, Nat.div_one]
  have hy : x % 2 ^ 64 % 2 ^ (38 + 1) < 2 ^ (64 - 25) := Nat.mod_lt _ (Nat.two_pow_pos _)
  generalize x % 2 ^ 64 % 2 ^ (38 + 1) = y at hy
  rw [shl64_of_lt (by decide) hy]
  by_cases hy0 : y = 0
  · subst hy0
    right
    simp [LeadingBitUint64_zero]
  · left
    have hlog : Nat.log2 y < 64 - 25 := (Nat.log2_lt hy0).mpr hy
    rw [LeadingBitUint64_shift hy0 (by decide) hy]
    omega

/-- Of two encoded hashes of the same 25-bit bucket, the one with the larger
stored rank decodes to the same register and to a rank at least as large. -/
theorem decode_mono {x y p : Nat} (hp : p ≤ 25)
    (hi : (EncodeHash x p).index25 = (EncodeHash y p).index25)
    (hr : (EncodeHash x p).rank25 ≤ (EncodeHash y p).rank25) :
    (DecodeHash (EncodeHash x p) p).1 = (DecodeHash (EncodeHash y p) p).1 ∧
    (DecodeHash (EncodeHash x p) p).2 ≤ (DecodeHash (EncodeHash y p) p).2 := by
  have hzx := encode_lowZero x p hp
  have hzy := encode_lowZero y p hp
  have hrx := encode_rank25_range x p
  have hry := encode_rank25_range y p
  generalize EncodeHash x p = e1 at hi hr hzx hrx
  generalize EncodeHash y p = e2 at hi hr hzy hry
  have hz : e1.lowZero = e2.lowZero := by rw [hzx, hzy, hi]
  unfold DecodeHash
  simp only
  rw [hi, hz]
  refine ⟨rfl, ?_⟩
  cases e2.lowZero with
  | false => simp
  | true =>
    simp only [if_true]
    split_ifs <;> omega

end Again

section Again2

variable {F : Type}

open SparseList

theorem updateRegister_noop {regs : List Nat} {i rho : Nat} (hi : i < regs.length)
    (hge : rho ≤ regs.getD i 0) : updateRegister regs i rho = some regs := by
  rw [updateRegister_total rho hi, max_eq_left hge]
  congr 1
  apply set_self_of_getElem?
  rw [List.getD_eq_getElem?_getD, List.getElem?_eq_getElem hi]
  rfl

theorem addNormal_noop {h : HLL F} {hash : Nat} (hi : denseIndex hash h.P < h.registers.length)
    (hge : denseRank hash h.P ≤ h.registers.getD (denseIndex hash h.P) 0) :
    addNormal h hash = some h := by
  rw [addNormal_eq, updateRegister_noop hi hge]
  rfl

/-- What `Add` does to a sparse estimator whose container is sorted: it promotes
it, or leaves it sparse with the entry of the value inserted into what a merge
of the write buffer into the container gives. -/
theorem Add_sparse_step {h h1 : HLL F} {value : String} (hf : h.format = SPARSE)
    (hs : h.sparseList.Data.Pairwise (fun a b => a.index25 < b.index25))
    (hadd : Add h value = some h1) :
    h1.Hasher = h.Hasher ∧ h1.P = h.P ∧ h1.m2 = h.m2 ∧
    (h1.format = NORMAL ∨
      (h1.format = SPARSE ∧
        (h1.sparseList.Merge h1.tempSet).1.Data =
          insertEntry (EncodeHash (h.Hasher value % 2 ^ 64) h.P)
            (h.sparseList.Merge h.tempSet).1.Data)) := by
  have hmerge : (h.sparseList.Merge (h.tempSet.Add (EncodeHash (h.Hasher value % 2 ^ 64) h.P))).1.Data =
      insertEntry (EncodeHash (h.Hasher value % 2 ^ 64) h.P) (h.sparseList.Merge h.tempSet).1.Data := by
    simp only [merge_data, SparseList.Add, List.foldl_append, List.foldl_cons, List.foldl_nil]
  rcases Add_sparse_cases hf hadd with ⟨_, heq⟩ | ⟨_, _, heq⟩ | ⟨_, _, regs, _, heq⟩
  · rw [heq]
    exact ⟨rfl, rfl, rfl, Or.inr ⟨hf, hmerge⟩⟩
  · rw [heq]
    refine ⟨rfl, rfl, rfl, Or.inr ⟨hf, ?_⟩⟩
    rw [← hmerge]
    exact congrArg SparseList.Data (merge_again _ _ hs)
  · rw [heq]
    exact ⟨rfl, rfl, rfl, Or.inl rfl⟩

theorem Add_dense_step {h h1 : HLL F} {value : String} (hf : h.format = NORMAL)
    (hadd : Add h value = some h1) :
    h1.format = NORMAL ∧ h1.Hasher = h.Hasher ∧ h1.P = h.P := by
  unfold Add at hadd
  simp only [if_pos hf] at hadd
  rw [(addNormal_spec hadd).2]
  exact ⟨hf, rfl, rfl⟩

theorem addN_dense {value : String} (n : Nat) :
    ∀ {h hn : HLL F}, h.format = NORMAL → addN h value n = some hn → hn.format = NORMAL := by
  induction n with
  | zero =>
    intro h hn hf hrun
    cases hrun
    exact hf
  | succ n ih =>
    intro h hn hf hrun
    unfold addN at hrun
    cases hadd : Add h value with
    | none => simp [hadd] at hrun
    | some h2 =>
      simp only [hadd] at hrun
      exact ih (Add_dense_step hf hadd).1 hrun

theorem addN_noop {h : HLL F} {value : String} (hadd : Add h value = some h) (n : Nat) :
    addN h value n = some h := by
  induction n with
  | zero => rfl
  | succ n ih =>
    unfold addN
    simp only [hadd]
    exact ih

/-- Adding again, `n` times, a value whose entry is already in the merge of the
buffer into the container: the estimator is promoted, or stays sparse with the
same merge. -/
theorem addN_sparse {value : String} {k : SparseEntry} {M : List SparseEntry}
    (hM : insertEntry k M = M) (n : Nat) :
    ∀ {h hn : HLL F}, h.format = SPARSE →
      h.sparseList.Data.Pairwise (fun a b => a.index25 < b.index25) →
      EncodeHash (h.Hasher value % 2 ^ 64) h.P = k →
      (h.sparseList.Merge h.tempSet).1.Data = M → addN h value n = some hn →
      hn.format = NORMAL ∨
        (hn.format = SPARSE ∧ (hn.sparseList.Merge hn.tempSet).1.Data = M ∧ hn.m2 = h.m2) := by
  induction n with
  | zero =>
    intro h hn hf _ _ hm hrun
    cases hrun
    exact Or.inr ⟨hf, hm, rfl⟩
  | succ n ih =>
    intro h hn hf hs hk hm hrun
    unfold addN at hrun
    cases hadd : Add h value with
    | none => simp [hadd] at hrun
    | some h2 =>
      simp only [hadd] at hrun
      obtain ⟨h2h, h2p, h2m, hcase⟩ := Add_sparse_step hf hs hadd
      rcases hcase with h2f | ⟨h2f, h2d⟩
      · exact Or.inl (addN_dense n h2f hrun)
      · rw [hk, hm, hM] at h2d
        rcases ih h2f (Add_sorted (Or.inl hf) hs hadd) (by rw [h2h, h2p]; exact hk) h2d hrun with
          h3 | ⟨h3f, h3d, h3m⟩
        · exact Or.inl h3
        · exact Or.inr ⟨h3f, h3d, h3m.trans h2m⟩

end Again2

section Again3

variable {F : Type}

open SparseList

/-- After an `Add` that leaves the estimator dense, the same `Add` again changes
nothing: the register of the value already holds at least its rank. -/
theorem Add_dense_noop {h h1 : HLL F} {value : String} (hinv : Inv h)
    (hadd : Add h value = some h1) (hf1 : h1.format = NORMAL) : Add h1 value = some h1 := by
  rcases hinv.format_cases with hf | hf
  · -- promoted by this call
    rcases Add_sparse_cases hf hadd with ⟨_, heq⟩ | ⟨_, _, heq⟩ | ⟨_, _, regs, hfill, heq⟩
    · rw [heq] at hf1
      exact absurd (hf.symm.trans hf1) (show SPARSE ≠ NORMAL by decide)
    · rw [heq] at hf1
      exact absurd (hf.symm.trans hf1) (show SPARSE ≠ NORMAL by decide)
    · have ht1 := add_enc (h.Hasher value % 2 ^ 64) hinv.temp_enc
      have henc := merge_enc (merge_enc hinv.sparse_enc ht1) ht1
      obtain ⟨regs1, hfill1, hlen, _, _, hge⟩ :=
        fillRegisters_spec h.P (2 ^ h.P) _ (List.replicate h.m1 0)
          (by rw [List.length_replicate, hinv.m1_eq])
          (fun e he => by
            obtain ⟨x, rfl⟩ := henc e he
            exact decode_index_lt x h.P hinv.p_hi)
      rw [hfill] at hfill1
      cases hfill1
      obtain ⟨e1, he1, hi1, hr1⟩ := foldl_insertEntry_covers
        (h.tempSet.Add (EncodeHash (h.Hasher value % 2 ^ 64) h.P)).Data
        (h.sparseList.Merge (h.tempSet.Add (EncodeHash (h.Hasher value % 2 ^ 64) h.P))).1.Data
        (EncodeHash (h.Hasher value % 2 ^ 64) h.P)
        (List.mem_append_right _ (List.mem_singleton_self _))
      rw [← merge_data] at he1
      obtain ⟨y, rfl⟩ := henc e1 he1
      obtain ⟨hdi, hdr⟩ := decode_mono hinv.p_hi hi1.symm hr1
      have hge1 := hge (EncodeHash y h.P) he1
      rw [← hdi] at hge1
      simp only [decode_encode _ _ hinv.p_hi] at hge1 hdr
      have hidx : denseIndex (h.Hasher value % 2 ^ 64) h.P < regs.length := by
        rw [hlen]
        exact denseIndex_lt _ _ (by have := hinv.p_hi; omega)
      rw [heq]
      unfold Add
      simp only [if_pos (rfl : NORMAL = NORMAL)]
      exact addNormal_noop hidx (le_trans hdr hge1)
  · -- dense before the call
    have hadd2 := hadd
    unfold Add at hadd2
    simp only [if_pos hf] at hadd2
    obtain ⟨hi, heq⟩ := addNormal_spec hadd2
    subst heq
    unfold Add
    simp only [if_pos hf]
    apply addNormal_noop
    · simp only [List.length_set]
      exact hi
    · simp only [List.getD_eq_getElem?_getD, List.getElem?_set_self hi]
      exact le_max_right _ _

theorem addN_inv (value : String) (n : Nat) :
    ∀ (h : HLL F), Inv h → ∃ hn, addN h value n = some hn ∧ Inv hn := by
  induction n with
  | zero => intro h hinv; exact ⟨h, rfl, hinv⟩
  | succ n ih =>
    intro h hinv
    obtain ⟨h1, hadd, hinv1⟩ := Add_inv h value hinv
    obtain ⟨hn, hrun, hinvn⟩ := ih h1 hinv1
    refine ⟨hn, ?_, hinvn⟩
    unfold addN
    simp only [hadd]
    exact hrun

variable [LinearOrderedField F]

theorem Cardinality_sparse (env : NumEnv F) {h : HLL F} (hf : h.format = SPARSE) :
    (Cardinality env h).1 =
      LinearCounting env.log h.m2
        (toInt h.m2 - (((h.sparseList.Merge h.tempSet).1.Data.length : Nat) : Int)) := by
  have hne : h.format ≠ NORMAL := by rw [hf]; decide
  unfold Cardinality
  simp only [if_neg hne, if_pos hf]
  rfl

/-- C3, amended: for every estimator state reachable from a successful
construction, every value and every `N ≥ 1`, `N` calls of `Add(v)` and one call
of `Add(v)` both run to their end, and `Cardinality` returns the same result
after the one as after the other whenever the two leave the estimator in the
same representation.  They do so whenever the estimator is dense before or
after the first call: the further calls then change nothing, and the `N` calls
leave the very state that the one call leaves. -/
theorem add_again_same_cardinality (env : NumEnv F) (h : HLL F) (hr : Reachable env h)
    (value : String) (N : Nat) (hN : 1 ≤ N) :
    ∃ hmany hone, addN h value N = some hmany ∧ Add h value = some hone ∧
      (hmany.format = hone.format →
        (Cardinality env hmany).1 = (Cardinality env hone).1) ∧
      (h.format = NORMAL → hone.format = NORMAL) ∧
      (hone.format = NORMAL →
        hmany = hone ∧ hmany.format = hone.format ∧
        (Cardinality env hmany).1 = (Cardinality env hone).1) := by
  have hinv := hr.inv
  obtain ⟨h1, hadd, hinv1⟩ := Add_inv h value hinv
  obtain ⟨n, rfl⟩ : ∃ n, N = n + 1 := ⟨N - 1, by omega⟩
  obtain ⟨hn, hrun, _⟩ := addN_inv value n h1 hinv1
  have hrunN : addN h value (n + 1) = some hn := by
    unfold addN
    simp only [hadd]
    exact hrun
  have hdense : h1.format = NORMAL → hn = h1 := by
    intro hf1
    have hnoop := addN_noop (Add_dense_noop hinv hadd hf1) n
    rw [hnoop] at hrun
    exact (Option.some.inj hrun).symm
  refine ⟨hn, h1, hrunN, hadd, fun hsame => ?_, fun hf => (Add_dense_step hf hadd).1,
    fun hf1 => ?_⟩
  · rcases hinv1.format_cases with hf1 | hf1
    · -- sparse after one call
      have hf : h.format = SPARSE := by
        rcases hinv.format_cases with hf | hf
        · exact hf
        · exact absurd ((Add_dense_step hf hadd).1.symm.trans hf1)
            (show NORMAL ≠ SPARSE by decide)
      obtain ⟨h1h, h1p, _, hcase⟩ := Add_sparse_step hf hr.sorted hadd
      rcases hcase with h1f | ⟨_, h1d⟩
      · exact absurd (h1f.symm.trans hf1) (show NORMAL ≠ SPARSE by decide)
      · rcases addN_sparse (insertEntry_idem _ _) n hf1
            (Add_sorted hinv.format_cases hr.sorted hadd) (by rw [h1h, h1p]) h1d hrun with
          hnf | ⟨hnf, hnd, hnm⟩
        · exact absurd ((hnf.symm.trans hsame).trans hf1) (show NORMAL ≠ SPARSE by decide)
        · rw [Cardinality_sparse env hnf, Cardinality_sparse env hf1, hnd, hnm, h1d]
    · -- dense after one call
      rw [hdense hf1]
  · have := hdense hf1
    subst this
    exact ⟨rfl, rfl, rfl⟩

/-- Witness of the amended C3 on the example estimator that its 96th value
promotes: three calls of `Add` of that value leave the state that one call
leaves, which is dense. -/
theorem add_again_same_cardinality_witness :
    Reachable exampleEnv promoteBefore ∧ 1 ≤ 3 ∧ promoteBefore.format = SPARSE ∧
    addN promoteBefore (ofLength 96) 3 = some promoteAfter ∧
    Add promoteBefore (ofLength 96) = some promoteAfter ∧ promoteAfter.format = NORMAL := by
  obtain ⟨hmany, hone, hrun, hadd, _, _, hd⟩ :=
    add_again_same_cardinality exampleEnv promoteBefore promoteBefore_reachable
      (ofLength 96) 3 (by decide)
  have hadd1 : Add promoteBefore (ofLength 96) = some promoteAfter :=
    eq_some_getD promoteBefore promote_facts.2.1
  rw [hadd1] at hadd
  have hone_eq : promoteAfter = hone := Option.some.inj hadd
  rw [← hone_eq] at hd
  rw [(hd promote_facts.2.2).1] at hrun
  exact ⟨promoteBefore_reachable, by decide, promote_facts.1, hrun, hadd1, promote_facts.2.2⟩

end Again3


section Idempotence

open SparseList

set_option maxRecDepth 100000 in
theorem idem_facts :
    (addValues (idemStart ℝ) ((List.range 95).map ofLength)).isSome = true ∧
    (Add (idemBase ℝ) (ofLength 95)).isSome = true ∧
    (addN (idemBase ℝ) (ofLength 95) 2).isSome = true ∧
    (idemOnce ℝ).format = SPARSE ∧ (idemOnce ℝ).m2 = 2 ^ 25 ∧
    ((idemOnce ℝ).sparseList.Merge (idemOnce ℝ).tempSet).1.Data.length = 96 ∧
    (idemTwice ℝ).format = NORMAL ∧ (idemTwice ℝ).registers = List.replicate 16 60 ∧
    (idemTwice ℝ).m1 = 16 ∧ (idemTwice ℝ).P = 4 := by decide

set_option maxRecDepth 100000 in
theorem idemTwice_alpha : (idemTwice ℝ).alpha = 0.673 := rfl

theorem Reachable.addValues {F : Type} [LinearOrderedField F] {env : NumEnv F}
    (values : List String) :
    ∀ {h h1 : HLL F}, Reachable env h → Gohll.addValues h values = some h1 →
      Reachable env h1 := by
  induction values with
  | nil =>
    intro h h1 hr hrun
    cases hrun
    exact hr
  | cons v vs ih =>
    intro h h1 hr hrun
    unfold Gohll.addValues at hrun
    cases hadd : Add h v with
    | none => simp [hadd] at hrun
    | some h2 =>
      simp only [hadd] at hrun
      exact ih (Reachable.step h h2 (Call.add v) hr hadd) hrun

theorem idemBase_reachable (env : NumEnv ℝ) : Reachable env (idemBase ℝ) :=
  Reachable.addValues ((List.range 95).map ofLength)
    (Reachable.setHasher _ blockHasher
      (Reachable.init (fun _ => []) 4 97 _
        (NewHLL_eq (fun _ => []) 4 97 (by decide) (by decide))))
    (eq_some_getD (idemStart ℝ) idem_facts.1)

theorem sumRegisters_idem :
    sumRegisters (F := ℝ) (List.replicate 16 60) = ((2 : ℝ) ^ (-(56 : ℤ)), 1) := by
  have e : List.replicate 16 60 = [60, 60, 60, 60, 60, 60, 60, 60, 60, 60, 60, 60, 60, 60, 60, 60] := rfl
  rw [e]
  simp only [sumRegisters, List.foldl_cons, List.foldl_nil]
  refine Prod.ext ?_ ?_
  · simp only
    norm_num
  · simp

/-- The dense estimate on 16 registers that all hold 60, whatever the tables:
the raw estimate is above `5 * m1`, so no bias is subtracted. -/
theorem cardinalityNormal_idem (env : NumEnv ℝ) (h : HLL ℝ)
    (hregs : h.registers = List.replicate 16 60) (hm1 : h.m1 = 16) (hP : h.P = 4)
    (ha : h.alpha = 0.673) :
    cardinalityNormal env h =
      if 16 * env.log 16 ≤ env.Threshold 4 then 16 * env.log 16 else 0.673 * 256 * 2 ^ 56 := by
  simp only [cardinalityNormal, hregs, hm1, hP, ha, sumRegisters_idem, LinearCounting]
  norm_num

theorem log_sixteen_lt : 16 * Real.log 16 < 96 := by
  have h16 : (16 : ℝ) = 2 ^ 4 := by norm_num
  have h2 : Real.log 2 ≤ 2 - 1 := Real.log_le_sub_one_of_pos (by norm_num)
  rw [h16, Real.log_pow]
  push_cast
  linarith

theorem sparse_estimate_bounds :
    96 ≤ (2 ^ 25 : ℝ) * Real.log (2 ^ 25 / (2 ^ 25 - 96)) ∧
    (2 ^ 25 : ℝ) * Real.log (2 ^ 25 / (2 ^ 25 - 96)) < 97 := by
  have hpos : (0 : ℝ) < 2 ^ 25 / (2 ^ 25 - 96) := by norm_num
  have hup := Real.log_le_sub_one_of_pos hpos
  have hlo := Real.one_sub_inv_le_log_of_pos hpos
  constructor
  · have : (1 : ℝ) - (2 ^ 25 / (2 ^ 25 - 96))⁻¹ = 96 / 2 ^ 25 := by norm_num
    rw [this] at hlo
    calc (96 : ℝ) = 2 ^ 25 * (96 / 2 ^ 25) := by norm_num
      _ ≤ 2 ^ 25 * Real.log (2 ^ 25 / (2 ^ 25 - 96)) := by
        apply mul_le_mul_of_nonneg_left hlo (by norm_num)
  · calc (2 ^ 25 : ℝ) * Real.log (2 ^ 25 / (2 ^ 25 - 96))
        ≤ 2 ^ 25 * (2 ^ 25 / (2 ^ 25 - 96) - 1) := by
          apply mul_le_mul_of_nonneg_left hup (by norm_num)
      _ < 97 := by norm_num

/-- Counterexample to C3 as stated, over the real numbers with the natural
logarithm and whatever the bias and threshold tables: on `NewHLL(4, 97)` after
95 values, one more value added once leaves the estimator sparse, with a linear
count between 96 and 97, and added twice fills the write buffer and promotes
the estimator, whose dense estimate is `16 ln 16 < 96` or is above `2^56`. -/
theorem add_again_counterexample :
    addN (idemBase ℝ) (ofLength 95) 2 = some (idemTwice ℝ) ∧
    Add (idemBase ℝ) (ofLength 95) = some (idemOnce ℝ) ∧
    (idemTwice ℝ).format = NORMAL ∧ (idemOnce ℝ).format = SPARSE ∧
    ∀ (bias : ℝ → Nat → ℝ) (threshold : Nat → ℝ),
      Reachable { log := Real.log, EstimateBias := bias, Threshold := threshold } (idemBase ℝ) ∧
      (Cardinality { log := Real.log, EstimateBias := bias, Threshold := threshold }
          (idemTwice ℝ)).1 ≠
        (Cardinality { log := Real.log, EstimateBias := bias, Threshold := threshold }
          (idemOnce ℝ)).1 := by
  obtain ⟨_, h2, h3, hf1, hm2, hlen, hfN, hregs, hm1, hP⟩ := idem_facts
  refine ⟨eq_some_getD _ h3, eq_some_getD _ h2, hfN, hf1, fun bias threshold => ?_⟩
  refine ⟨idemBase_reachable _, ?_⟩
  have hone : (Cardinality { log := Real.log, EstimateBias := bias, Threshold := threshold }
      (idemOnce ℝ)).1 = (2 ^ 25 : ℝ) * Real.log (2 ^ 25 / (2 ^ 25 - 96)) := by
    rw [Cardinality_sparse _ hf1, hm2, hlen]
    have ht : toInt (2 ^ 25) = 2 ^ 25 := by decide
    rw [ht]
    unfold LinearCounting
    push_cast
    norm_num
  have htwo : (Cardinality { log := Real.log, EstimateBias := bias, Threshold := threshold }
      (idemTwice ℝ)).1 =
      if 16 * Real.log 16 ≤ threshold 4 then 16 * Real.log 16 else 0.673 * 256 * 2 ^ 56 := by
    unfold Cardinality
    rw [if_pos hfN]
    exact cardinalityNormal_idem _ _ hregs hm1 hP idemTwice_alpha
  rw [hone, htwo]
  obtain ⟨hlo, hhi⟩ := sparse_estimate_bounds
  have h16 := log_sixteen_lt
  split_ifs
  · exact ne_of_lt (lt_of_lt_of_le h16 hlo)
  · apply ne_of_gt
    refine lt_trans hhi ?_
    norm_num

end Idempotence


/-! ## The frame of `Cardinality` -/

section Frame

variable {F : Type} [LinearOrderedField F]

/-- C12: `Cardinality` changes neither the representation flag nor `P`, `m1`,
`m2`, `alpha` and the register array (nor the hasher and the configured buffer
size); outside the `SPARSE` state it changes nothing, and in the `SPARSE` state
what it changes is the sparse container and the write buffer, by the merge of
the buffer into the container.  So a call that takes the estimator from
`SPARSE` to `NORMAL` is a call of `Add`. -/
theorem Cardinality_frame (env : NumEnv F) (h : HLL F) :
    ((Cardinality env h).2.format = h.format ∧ (Cardinality env h).2.P = h.P ∧
      (Cardinality env h).2.m1 = h.m1 ∧ (Cardinality env h).2.m2 = h.m2 ∧
      (Cardinality env h).2.alpha = h.alpha ∧
      (Cardinality env h).2.registers = h.registers ∧
      (Cardinality env h).2.Hasher = h.Hasher ∧
      (Cardinality env h).2.MaxSparseSetSize = h.MaxSparseSetSize) ∧
    (h.format ≠ SPARSE → (Cardinality env h).2 = h) ∧
    (h.format = SPARSE →
      (Cardinality env h).2.sparseList = (h.sparseList.Merge h.tempSet).1 ∧
      (Cardinality env h).2.tempSet = (h.sparseList.Merge h.tempSet).2) ∧
    (∀ (c : Call) (h1 : HLL F), step env h c = some h1 → h.format = SPARSE →
      h1.format = NORMAL → ∃ value, c = Call.add value) := by
  have hst := Cardinality_state env h
  refine ⟨?_, ?_, ?_, ?_⟩
  · by_cases hs : h.format = SPARSE
    · rw [if_pos hs] at hst
      rw [hst]
      exact ⟨rfl, rfl, rfl, rfl, rfl, rfl, rfl, rfl⟩
    · rw [if_neg hs] at hst
      rw [hst]
      exact ⟨rfl, rfl, rfl, rfl, rfl, rfl, rfl, rfl⟩
  · intro hs
    rw [hst, if_neg hs]
  · intro hs
    rw [hst, if_pos hs]
    exact ⟨rfl, rfl⟩
  · intro c h1 hstep hs hn
    cases c with
    | add value => exact ⟨value, rfl⟩
    | cardinality =>
      have h1eq : h1 = (Cardinality env h).2 := by
        have := hstep
        simp only [step] at this
        exact (Option.some.inj this).symm
      have hf : h1.format = h.format := by
        rw [h1eq, hst, if_pos hs]
      rw [hf, hs] at hn
      exact absurd hn (by decide)

/-- Witness of C12: `Cardinality` on the fresh example estimator, which is
sparse, leaves it sparse. -/
theorem Cardinality_frame_witness :
    sentinelStart.format = SPARSE ∧
    (Cardinality exampleEnv sentinelStart).2.format = sentinelStart.format ∧
    (Cardinality exampleEnv sentinelStart).2.sparseList =
      (sentinelStart.sparseList.Merge sentinelStart.tempSet).1 :=
  ⟨rfl, (Cardinality_frame exampleEnv sentinelStart).1.1,
    ((Cardinality_frame exampleEnv sentinelStart).2.2.1 rfl).1⟩

end Frame


/-! ## The dense update -/

section DenseUpdate

variable {F : Type}

theorem updateRegister_eq (regs : List Nat) (i rho : Nat) :
    updateRegister regs i rho =
      if i < regs.length then some (regs.set i (max (regs.getD i 0) rho)) else none := by
  by_cases hi : i < regs.length
  · rw [if_pos hi, updateRegister_total rho hi]
  · rw [if_neg hi]
    unfold updateRegister
    rw [List.getElem?_eq_none (not_lt.mp hi)]

theorem addNormal_ite (h : HLL F) (hash : Nat) :
    addNormal h hash =
      if denseIndex hash h.P < h.registers.length then
        some { h with registers := (h.registers.set (denseIndex hash h.P)
          (max (h.registers.getD (denseIndex hash h.P) 0) (denseRank hash h.P))) }
      else none := by
  rw [addNormal_eq, updateRegister_eq]
  by_cases hi : denseIndex hash h.P < h.registers.length
  · rw [if_pos hi, if_pos hi]
    rfl
  · rw [if_neg hi, if_neg hi]
    rfl

/-- The index of the dense path is the hash shifted right by `64-p`, and its
rank is the rank of the low `64-p` bits of the hash, moved up by `p` bits. -/
theorem dense_pair_eq (hash p : Nat) (hp : p ≤ 63) :
    denseIndex hash p = hash % 2 ^ 64 / 2 ^ (64 - p) ∧
    shl64 (SliceUint64 hash (u8sub 63 p) 0) p = hash % 2 ^ 64 % 2 ^ (64 - p) * 2 ^ p ∧
    hash % 2 ^ 64 % 2 ^ (64 - p) * 2 ^ p < 2 ^ 64 ∧
    denseRank hash p = LeadingBitUint64 (hash % 2 ^ 64 % 2 ^ (64 - p) * 2 ^ p) := by
  have h63 : u8sub 63 p = 63 - p := u8sub_of_le (by decide) hp
  have h64 : u8sub 64 p = 64 - p := u8sub_of_le (by decide) (by omega)
  have e : 63 - p + 1 = 64 - p := by omega
  have hy : hash % 2 ^ 64 % 2 ^ (64 - p) < 2 ^ (64 - p) := Nat.mod_lt _ (Nat.two_pow_pos _)
  have hs : shl64 (SliceUint64 hash (u8sub 63 p) 0) p =
      hash % 2 ^ 64 % 2 ^ (64 - p) * 2 ^ p := by
    rw [h63]
    unfold SliceUint64
    rw [e, Nat.pow_zero, Nat.div_one, shl64_of_lt (by omega) hy]
  refine ⟨?_, hs, ?_, ?_⟩
  · unfold denseIndex
    rw [h64]
    simp [SliceUint64]
  · rw [← hs]
    unfold shl64
    exact Nat.mod_lt _ (by decide)
  · unfold denseRank
    rw [hs]

/-- C13: on a dense estimator with a register array of `2^p` entries,
`addNormal(hash)` runs, leaves in the register at `index = hash >> (64-p)` the
maximum of its old value and the rank of the low `64-p` bits of the hash, and
leaves every other register and every other field as it was. -/
theorem addNormal_max_update (h : HLL F) (hash : Nat) (hf : h.format = NORMAL)
    (hs : DenseShape h) :
    ∃ h1, addNormal h hash = some h1 ∧
      denseIndex hash h.P = hash % 2 ^ 64 / 2 ^ (64 - h.P) ∧
      denseRank hash h.P = LeadingBitUint64 (hash % 2 ^ 64 % 2 ^ (64 - h.P) * 2 ^ h.P) ∧
      h1.registers.length = h.registers.length ∧
      h1.registers.getD (denseIndex hash h.P) 0 =
        max (h.registers.getD (denseIndex hash h.P) 0) (denseRank hash h.P) ∧
      (∀ j, j ≠ denseIndex hash h.P → h1.registers.getD j 0 = h.registers.getD j 0) ∧
      h1.format = NORMAL ∧ h1 = { h with registers := h1.registers } := by
  obtain ⟨_, hhi, hlen⟩ := hs
  have hi : denseIndex hash h.P < h.registers.length := by
    rw [hlen]
    exact denseIndex_lt hash h.P (by omega)
  obtain ⟨hidx, _, _, hrank⟩ := dense_pair_eq hash h.P (by omega)
  refine ⟨{ h with registers := (h.registers.set (denseIndex hash h.P)
      (max (h.registers.getD (denseIndex hash h.P) 0) (denseRank hash h.P))) },
    by rw [addNormal_ite, if_pos hi], hidx, hrank, ?_, ?_, ?_, hf, rfl⟩
  · simp only [List.length_set]
  · simp only [List.getD_eq_getElem?_getD, List.getElem?_set_self hi, Option.getD_some]
  · intro j hj
    simp only [List.getD_eq_getElem?_getD, List.getElem?_set_ne (Ne.symm hj)]

/-- Witness of C13 on the example dense estimator. -/
theorem addNormal_max_update_witness :
    exampleDense.format = NORMAL ∧ DenseShape exampleDense ∧
    ∃ h1, addNormal exampleDense (5 * 2 ^ 60 + 1) = some h1 ∧
      h1.registers.getD (denseIndex (5 * 2 ^ 60 + 1) exampleDense.P) 0 =
        max (exampleDense.registers.getD (denseIndex (5 * 2 ^ 60 + 1) exampleDense.P) 0)
          (denseRank (5 * 2 ^ 60 + 1) exampleDense.P) := by
  have hs : DenseShape exampleDense := ⟨by decide, by decide, rfl⟩
  obtain ⟨h1, hadd, _, _, _, hmax, _⟩ :=
    addNormal_max_update exampleDense (5 * 2 ^ 60 + 1) rfl hs
  exact ⟨rfl, hs, h1, hadd, hmax⟩

/-- Counterexample to C14 as stated: at `p = 4` the hash 0 has `w = 0` and the
rank that `addNormal` uses is 64, not `64 - 4 + 1 = 61`; `addNormal` stores 64
in register 0. -/
theorem dense_rank_counterexample :
    shl64 (SliceUint64 0 (u8sub 63 4) 0) 4 = 0 ∧
    LeadingBitUint64 (shl64 (SliceUint64 0 (u8sub 63 4) 0) 4) = 64 ∧
    (addNormal exampleDense 0).map (fun h => h.registers) = some (64 :: List.replicate 15 0) ∧
    ¬ (LeadingBitUint64 (shl64 (SliceUint64 0 (u8sub 63 4) 0) 4) = 64 - 4 + 1) := by
  decide

/-- C14, amended: for `4 ≤ p ≤ 25` and a 64-bit hash, with `w` the low `64-p`
bits of the hash shifted left by `p`, the rank that `addNormal` uses is
`1 +` the number of leading zero bits of `w` when `w ≠ 0`, which is at most
`64-p`, and is the sentinel `64` when `w = 0`. -/
theorem dense_rank (hash p : Nat) (hp : 4 ≤ p ∧ p ≤ 25) :
    shl64 (SliceUint64 hash (u8sub 63 p) 0) p = hash % 2 ^ 64 % 2 ^ (64 - p) * 2 ^ p ∧
    (hash % 2 ^ 64 % 2 ^ (64 - p) * 2 ^ p ≠ 0 →
      denseRank hash p = 1 + leadingZeros 64 (hash % 2 ^ 64 % 2 ^ (64 - p) * 2 ^ p) ∧
      1 ≤ denseRank hash p ∧ denseRank hash p ≤ 64 - p) ∧
    (hash % 2 ^ 64 % 2 ^ (64 - p) * 2 ^ p = 0 → denseRank hash p = 64) := by
  obtain ⟨_, hhi⟩ := hp
  obtain ⟨_, hs, hlt, hrank⟩ := dense_pair_eq hash p (by omega)
  refine ⟨hs, fun hne => ?_, fun h0 => ?_⟩
  · refine ⟨?_, denseRank_pos hash p (by omega), ?_⟩
    · rw [hrank]
      unfold LeadingBitUint64
      rw [Nat.mod_eq_of_lt hlt, if_neg hne]
    · rcases denseRank_range hash p (by omega) with h1 | h1
      · exact h1
      · exfalso
        rw [hrank] at h1
        unfold LeadingBitUint64 at h1
        rw [Nat.mod_eq_of_lt hlt, if_neg hne] at h1
        have hy : hash % 2 ^ 64 % 2 ^ (64 - p) < 2 ^ (64 - p) :=
          Nat.mod_lt _ (Nat.two_pow_pos _)
        have hy0 : hash % 2 ^ 64 % 2 ^ (64 - p) ≠ 0 := by
          intro h0
          rw [h0, Nat.zero_mul] at hne
          exact hne rfl
        have := LeadingBitUint64_shift hy0 (by omega : p ≤ 64) hy
        unfold LeadingBitUint64 at this
        rw [Nat.mod_eq_of_lt hlt, if_neg hne] at this
        have hlog : Nat.log2 (hash % 2 ^ 64 % 2 ^ (64 - p)) < 64 - p := (Nat.log2_lt hy0).mpr hy
        omega
  · rw [hrank, h0]
    exact LeadingBitUint64_zero

/-- Witness of the amended C14 at `p = 4` and the hash `2^59 + 1`. -/
theorem dense_rank_witness :
    (4 ≤ 4 ∧ 4 ≤ 25) ∧
    shl64 (SliceUint64 (2 ^ 59 + 1) (u8sub 63 4) 0) 4 =
      (2 ^ 59 + 1) % 2 ^ 64 % 2 ^ (64 - 4) * 2 ^ 4 :=
  ⟨by decide, (dense_rank (2 ^ 59 + 1) 4 (by decide)).1⟩

end DenseUpdate


/-! ## Register indexing and the order of the updates -/

section DenseOrder

variable {F : Type}

theorem set_max_comm (regs : List Nat) (i j r s : Nat) :
    (regs.set i (max (regs.getD i 0) r)).set j
        (max ((regs.set i (max (regs.getD i 0) r)).getD j 0) s) =
      (regs.set j (max (regs.getD j 0) s)).set i
        (max ((regs.set j (max (regs.getD j 0) s)).getD i 0) r) := by
  apply List.ext_getElem?
  intro k
  simp only [List.getD_eq_getElem?_getD, List.getElem?_set, List.length_set]
  by_cases hij : i = j
  · subst hij
    by_cases hi : i < regs.length
    · by_cases hk : i = k
      · subst hk
        simp [hi, max_assoc, max_comm r s]
      · simp [hi, hk]
    · by_cases hk : i = k
      · subst hk
        simp [hi]
      · simp [hi, hk]
  · have hji : ¬ j = i := fun h => hij h.symm
    by_cases hik : i = k
    · subst hik
      simp [hij, hji]
    · by_cases hjk : j = k
      · subst hjk
        simp [hij, hji, hik]
      · simp [hij, hji, hik, hjk]

/-- Two calls of `addNormal` give the same estimator in either order (and
panic in either order, if they do). -/
theorem addNormal_swap (h : HLL F) (a b : Nat) :
    (addNormal h a).bind (fun h1 => addNormal h1 b) =
      (addNormal h b).bind (fun h1 => addNormal h1 a) := by
  simp only [addNormal_ite]
  by_cases ha : denseIndex a h.P < h.registers.length
  · by_cases hb : denseIndex b h.P < h.registers.length
    · simp only [if_pos ha, if_pos hb, Option.some_bind, List.length_set]
      rw [set_max_comm]
    · simp [ha, hb]
  · by_cases hb : denseIndex b h.P < h.registers.length
    · simp [ha, hb]
    · simp [ha, hb]

theorem addNormals_perm {l1 l2 : List Nat} (hp : l1.Perm l2) :
    ∀ h : HLL F, addNormals h l1 = addNormals h l2 := by
  induction hp with
  | nil => intro h; rfl
  | cons x _ ih =>
    intro h
    unfold addNormals
    cases addNormal h x with
    | none => rfl
    | some h1 => exact ih h1
  | swap x y l =>
    intro h
    have hsw := addNormal_swap h y x
    unfold addNormals
    cases hy : addNormal h y with
    | none =>
      rw [hy] at hsw
      cases hx : addNormal h x with
      | none => rfl
      | some hx1 =>
        rw [hx] at hsw
        simp only [Option.none_bind, Option.some_bind] at hsw
        simp only
        unfold addNormals
        rw [← hsw]
    | some hy1 =>
      rw [hy] at hsw
      cases hx : addNormal h x with
      | none =>
        rw [hx] at hsw
        simp only [Option.none_bind, Option.some_bind] at hsw
        simp only
        unfold addNormals
        rw [hsw]
      | some hx1 =>
        rw [hx] at hsw
        simp only [Option.some_bind] at hsw
        simp only
        unfold addNormals
        rw [hsw]
  | trans _ _ ih1 ih2 => intro h; exact (ih1 h).trans (ih2 h)

theorem addNormals_total (l : List Nat) :
    ∀ h : HLL F, DenseShape h → ∃ h1, addNormals h l = some h1 := by
  induction l with
  | nil => intro h _; exact ⟨h, rfl⟩
  | cons x xs ih =>
    intro h hs
    obtain ⟨h1, hadd⟩ := addNormal_total h x hs
    have hs1 : DenseShape h1 := by
      rw [(addNormal_spec hadd).2]
      unfold DenseShape at hs ⊢
      simp only [List.length_set]
      exact hs
    obtain ⟨h2, hrun⟩ := ih h1 hs1
    refine ⟨h2, ?_⟩
    unfold addNormals
    simp only [hadd]
    exact hrun

variable [LinearOrderedField F]

/-- C20: on a dense estimator `addNormal(a)` then `addNormal(b)` gives the same
estimator, so the same register array, as `addNormal(b)` then `addNormal(a)`,
and on a register array of `2^p` entries both run; hence two sequences of
hashes that are permutations of each other leave the same registers and the
same dense `Cardinality`. -/
theorem addNormal_order_independent (env : NumEnv F) (h : HLL F) (a b : Nat)
    (hf : h.format = NORMAL) :
    (addNormal h a).bind (fun h1 => addNormal h1 b) =
      (addNormal h b).bind (fun h1 => addNormal h1 a) ∧
    (DenseShape h →
      ∃ hab, (addNormal h a).bind (fun h1 => addNormal h1 b) = some hab ∧
        (addNormal h b).bind (fun h1 => addNormal h1 a) = some hab ∧
        hab.format = NORMAL) ∧
    (∀ (l1 l2 : List Nat) (h1 h2 : HLL F), l1.Perm l2 →
      addNormals h l1 = some h1 → addNormals h l2 = some h2 →
      h1.registers = h2.registers ∧ (Cardinality env h1).1 = (Cardinality env h2).1) := by
  refine ⟨addNormal_swap h a b, fun hs => ?_, fun l1 l2 h1 h2 hp hr1 hr2 => ?_⟩
  · obtain ⟨hab, hrun⟩ := addNormals_total [a, b] h hs
    have hbind : (addNormal h a).bind (fun h1 => addNormal h1 b) = some hab := by
      unfold addNormals at hrun
      cases ha : addNormal h a with
      | none => simp [ha] at hrun
      | some h1 =>
        simp only [ha] at hrun
        unfold addNormals at hrun
        cases hb : addNormal h1 b with
        | none => simp [hb] at hrun
        | some h2 =>
          simp only [hb, addNormals] at hrun
          rw [Option.some_bind, hb, hrun]
    refine ⟨hab, hbind, by rw [← addNormal_swap]; exact hbind, ?_⟩
    cases ha : addNormal h a with
    | none => simp [ha] at hbind
    | some h1 =>
      rw [ha, Option.some_bind] at hbind
      rw [(addNormal_spec hbind).2, (addNormal_spec ha).2]
      exact hf
  · rw [addNormals_perm hp h, hr2] at hr1
    cases hr1
    exact ⟨rfl, rfl⟩

/-- Witness of C20 on the example dense estimator. -/
theorem addNormal_order_independent_witness :
    exampleDense.format = NORMAL ∧
    (addNormal exampleDense (3 * 2 ^ 60 + 5)).bind (fun h1 => addNormal h1 (3 * 2 ^ 60 + 2 ^ 40)) =
      (addNormal exampleDense (3 * 2 ^ 60 + 2 ^ 40)).bind
        (fun h1 => addNormal h1 (3 * 2 ^ 60 + 5)) :=
  ⟨rfl, (addNormal_order_independent exampleEnv exampleDense (3 * 2 ^ 60 + 5)
    (3 * 2 ^ 60 + 2 ^ 40) rfl).1⟩

/-- C19: in every dense state reachable from a successful construction the
register array has `m1 = 2^P` entries with `4 ≤ P ≤ 25`, and for every hash the
index `SliceUint64(hash, 63, 64-P)` that `addNormal` uses is below that length:
`addNormal` reads and writes inside the array and returns. -/
theorem register_index_in_range (env : NumEnv F) (h : HLL F) (hr : Reachable env h)
    (hf : h.format = NORMAL) :
    4 ≤ h.P ∧ h.P ≤ 25 ∧ h.m1 = 2 ^ h.P ∧ h.registers.length = h.m1 ∧
    ∀ hash : Nat,
      SliceUint64 hash 63 (u8sub 64 h.P) < h.registers.length ∧
      ∃ h1, addNormal h hash = some h1 := by
  have hinv := hr.inv
  have hlen := hinv.shape hf
  refine ⟨hinv.p_lo, hinv.p_hi, hinv.m1_eq, by rw [hlen, hinv.m1_eq], fun hash => ⟨?_, ?_⟩⟩
  · rw [hlen]
    exact denseIndex_lt hash h.P (by have := hinv.p_hi; omega)
  · exact addNormal_total h hash ⟨hinv.p_lo, hinv.p_hi, hlen⟩

set_option maxRecDepth 100000 in
/-- Witness of C19 on the promoted example estimator. -/
theorem register_index_in_range_witness :
    Reachable exampleEnv sentinelDense ∧ sentinelDense.format = NORMAL ∧
    sentinelDense.registers.length = sentinelDense.m1 ∧
    ∀ hash : Nat,
      SliceUint64 hash 63 (u8sub 64 sentinelDense.P) < sentinelDense.registers.length ∧
      ∃ h1, addNormal sentinelDense hash = some h1 :=
  have hreach : Reachable exampleEnv sentinelDense :=
    Reachable.run sentinelCalls sentinelStart_reachable sentinelDense_run
  have hf : sentinelDense.format = NORMAL := by decide
  ⟨hreach, hf, (register_index_in_range exampleEnv sentinelDense hreach hf).2.2.2.1,
    (register_index_in_range exampleEnv sentinelDense hreach hf).2.2.2.2⟩

end DenseOrder


/-! ## The write buffer and the promotion -/

section Promotion

variable {F : Type} [LinearOrderedField F]

open SparseList

end Promotion


section Buffer

variable {F : Type} [LinearOrderedField F]

open SparseList

end Buffer


/-! ## The dense estimate -/

section DenseEstimate

variable {F : Type} [LinearOrderedField F]

/-- The loop of `cardinalityNormal` reads each register as an integer. -/
theorem sumRegisters_map (registers : List Nat) :
    sumRegisters (F := F) registers =
      (registers.map (fun (a : Nat) => (a : Int))).foldl
        (fun (acc : F × Int) (value : Int) =>
          (acc.1 + (2 : F) ^ (-value), if acc.2 = 0 then acc.2 + 1 else acc.2)) (0, 0) := by
  unfold sumRegisters
  congr 1
  induction registers with
  | nil => rfl
  | cons x xs ih =>
    rw [List.map_cons, ← ih]
    rfl

theorem sumRegisters_V_aux (l : List Int) :
    ∀ acc : F × Int, acc.2 = 1 →
      (l.foldl (fun (acc : F × Int) (value : Int) =>
        (acc.1 + (2 : F) ^ (-value), if acc.2 = 0 then acc.2 + 1 else acc.2)) acc).2 = 1 := by
  induction l with
  | nil => intro acc h; exact h
  | cons x xs ih =>
    intro acc h
    rw [List.foldl_cons]
    apply ih
    simp [h]

/-- The counter `V` of `cardinalityNormal` is 1 as soon as there is a register,
whatever the registers hold. -/
theorem sumRegisters_V (registers : List Nat) (hne : registers ≠ []) :
    (sumRegisters (F := F) registers).2 = 1 := by
  rw [sumRegisters_map]
  cases registers with
  | nil => exact absurd rfl hne
  | cons x xs =>
    rw [List.map_cons, List.foldl_cons]
    apply sumRegisters_V_aux
    simp

/-- On a non-empty register array `cardinalityNormal` calls
`LinearCounting(m1, 1)` and returns it when it is at most the threshold. -/
theorem cardinalityNormal_pinned (env : NumEnv F) (h : HLL F) (hne : h.registers ≠ [])
    (hle : LinearCounting env.log h.m1 1 ≤ env.Threshold h.P) :
    cardinalityNormal env h = LinearCounting env.log h.m1 1 := by
  unfold cardinalityNormal
  simp only [sumRegisters_V h.registers hne]
  rw [if_pos (by decide : (1 : Int) ≠ 0), if_pos hle]

theorem Reachable.addN {env : NumEnv F} {value : String} (n : Nat) :
    ∀ {h h1 : HLL F}, Reachable env h → Gohll.addN h value n = some h1 → Reachable env h1 := by
  induction n with
  | zero =>
    intro h h1 hr hrun
    cases hrun
    exact hr
  | succ n ih =>
    intro h h1 hr hrun
    unfold Gohll.addN at hrun
    cases hadd : Add h value with
    | none => simp [hadd] at hrun
    | some h2 =>
      simp only [hadd] at hrun
      exact ih (Reachable.step h h2 (Call.add value) hr hadd) hrun

set_option maxRecDepth 100000 in
/-- C16, the code at two reachable dense estimators of precision 4.  With the
registers `21, 0, ..., 0`, 15 of which are zero, the counter `V` is 1 and
`Cardinality` returns `LinearCounting(16, 1)` when that is at most the
threshold; with 16 registers that all hold 60, none of which is zero, `V` is 1
again and `LinearCounting(16, 1)` is still what is compared with the threshold
and returned. -/
theorem zero_count_pinned :
    (Reachable exampleEnv sentinelDense ∧ sentinelDense.format = NORMAL ∧
      sentinelDense.registers = 21 :: List.replicate 15 0 ∧
      zeroRegisters sentinelDense.registers = 15 ∧
      (sumRegisters (F := ℚ) sentinelDense.registers).2 = 1 ∧
      ∀ env : NumEnv ℚ, LinearCounting env.log 16 1 ≤ env.Threshold 4 →
        (Cardinality env sentinelDense).1 = LinearCounting env.log 16 1) ∧
    ((idemTwice ℝ).format = NORMAL ∧ (idemTwice ℝ).registers = List.replicate 16 60 ∧
      zeroRegisters (idemTwice ℝ).registers = 0 ∧
      (sumRegisters (F := ℝ) (idemTwice ℝ).registers).2 = 1 ∧
      ∀ env : NumEnv ℝ, Reachable env (idemTwice ℝ) ∧
        (LinearCounting env.log 16 1 ≤ env.Threshold 4 →
          (Cardinality env (idemTwice ℝ)).1 = LinearCounting env.log 16 1)) := by
  have hf : sentinelDense.format = NORMAL := by decide
  have hregs : sentinelDense.registers = 21 :: List.replicate 15 0 := by decide
  have hm1 : sentinelDense.m1 = 16 := by decide
  have hP : sentinelDense.P = 4 := by decide
  have hne : sentinelDense.registers ≠ [] := by rw [hregs]; exact List.cons_ne_nil _ _
  obtain ⟨_, _, h3, _, _, _, hfN, hregsN, hm1N, hPN⟩ := idem_facts
  have hneN : (idemTwice ℝ).registers ≠ [] := by rw [hregsN]; decide
  refine ⟨⟨Reachable.run sentinelCalls sentinelStart_reachable sentinelDense_run, hf, hregs,
    by rw [hregs]; decide, sumRegisters_V _ hne, fun env hle => ?_⟩,
    ⟨hfN, hregsN, by rw [hregsN]; decide, sumRegisters_V _ hneN, fun env => ⟨?_, fun hle => ?_⟩⟩⟩
  · unfold Cardinality
    rw [if_pos hf]
    simp only
    have := cardinalityNormal_pinned env sentinelDense hne (by rw [hm1, hP]; exact hle)
    rw [this, hm1]
  · exact Reachable.addN 2 (idemBase_reachable env) (eq_some_getD _ h3)
  · unfold Cardinality
    rw [if_pos hfN]
    simp only
    have := cardinalityNormal_pinned env (idemTwice ℝ) hneN (by rw [hm1N, hPN]; exact hle)
    rw [this, hm1N]

end DenseEstimate


/-! ## The registers after the promotion -/

section PromotionResult

variable {F : Type}

open SparseList

theorem foldl_max_filter_cons (p i : Nat) (e : SparseEntry) (l : List SparseEntry) (m : Nat) :
    (((e :: l).filter (fun e => (DecodeHash e p).1 = i)).map
        (fun e => (DecodeHash e p).2)).foldl max m =
      ((l.filter (fun e => (DecodeHash e p).1 = i)).map
        (fun e => (DecodeHash e p).2)).foldl max
          (if (DecodeHash e p).1 = i then max m (DecodeHash e p).2 else m) := by
  by_cases h : (DecodeHash e p).1 = i
  · simp [List.filter_cons, h]
  · simp [List.filter_cons, h]

/-- The loop of `toNormal`: every register ends at the maximum of its old value
and the decoded ranks of the entries whose decoded index it is. -/
theorem fillRegisters_max (p : Nat) :
    ∀ (l : List SparseEntry) (regs regs1 : List Nat), fillRegisters p l regs = some regs1 →
      regs1.length = regs.length ∧
      ∀ i, regs1.getD i 0 =
        ((l.filter (fun e => (DecodeHash e p).1 = i)).map
          (fun e => (DecodeHash e p).2)).foldl max (regs.getD i 0) := by
  intro l
  induction l with
  | nil =>
    intro regs regs1 h
    cases h
    exact ⟨rfl, fun i => rfl⟩
  | cons e l ih =>
    intro regs regs1 h
    unfold fillRegisters at h
    cases hup : updateRegister regs (DecodeHash e p).1 (DecodeHash e p).2 with
    | none => simp [hup] at h
    | some regs2 =>
      simp only [hup] at h
      obtain ⟨hi, heq⟩ := updateRegister_spec hup
      obtain ⟨hlen, hval⟩ := ih regs2 regs1 h
      refine ⟨by rw [hlen, heq, List.length_set], fun i => ?_⟩
      rw [hval i, foldl_max_filter_cons]
      congr 1
      rw [heq]
      by_cases hidx : (DecodeHash e p).1 = i
      · subst hidx
        rw [if_pos rfl]
        simp only [List.getD_eq_getElem?_getD, List.getElem?_set_self hi, Option.getD_some]
      · rw [if_neg hidx]
        simp only [List.getD_eq_getElem?_getD, List.getElem?_set_ne hidx]

theorem getD_replicate_zero (n i : Nat) : (List.replicate n 0).getD i 0 = 0 := by
  by_cases hi : i < n
  · simp [List.getD_eq_getElem?_getD, List.getElem?_replicate, hi]
  · simp [List.getD_eq_getElem?_getD, List.getElem?_replicate, hi]

/-- C15: when `toNormal` runs on a sparse estimator, afterwards the
representation is `NORMAL`, the register array has `m1` entries, and every
register `i` holds the maximum of the decoded ranks over the entries of the
merged sparse container whose decoded index is `i`, and 0 if there is none; on
a state of the invariant of the reachable states `toNormal` does run to its
end. -/
theorem toNormal_registers (h : HLL F) (_hf : h.format = SPARSE) :
    (∀ h1, toNormal h = some h1 →
      h1.format = NORMAL ∧ h1.registers.length = h.m1 ∧
      ∀ i, i < h.m1 →
        h1.registers.getD i 0 = maxRankAt h.P i (h.sparseList.Merge h.tempSet).1.Data) ∧
    (Inv h → ∃ h1, toNormal h = some h1) := by
  refine ⟨fun h1 htn => ?_, fun hinv => ?_⟩
  · obtain ⟨regs, hfill, heq⟩ := toNormal_eq_some htn
    obtain ⟨hlen, hval⟩ := fillRegisters_max h.P _ _ _ hfill
    rw [heq]
    refine ⟨rfl, by rw [hlen, List.length_replicate], fun i _ => ?_⟩
    simp only
    rw [hval i, getD_replicate_zero]
    rfl
  · obtain ⟨regs, htn, _⟩ := toNormal_spec h hinv.p_hi hinv.m1_eq hinv.sparse_enc hinv.temp_enc
    exact ⟨_, htn⟩

theorem spreadState_reachable : Reachable exampleEnv spreadState :=
  Reachable.addValues ((List.range 24).map (fun j => ofLength (j + 8)))
    (Reachable.setHasher _ blockHasher
      (Reachable.init (fun _ => []) 4 97 _
        (NewHLL_eq (fun _ => []) 4 97 (by decide) (by decide))))
    (eq_some_getD _ (by decide))

set_option maxRecDepth 100000 in
/-- Witness of C15 on a sparse estimator with 24 entries in its write buffer:
`toNormal` runs, every register holds the maximum of the decoded ranks of its
entries, which is 21 in the registers 0 to 7, of one entry each, and 60 in the
registers 8 to 15, of two entries each (of ranks 60 and 21). -/
theorem toNormal_registers_witness :
    spreadState.format = SPARSE ∧ spreadState.tempSet.Data.length = 24 ∧
    (spreadState.sparseList.Merge spreadState.tempSet).1.Data.length = 24 ∧
    ∃ h1, toNormal spreadState = some h1 ∧ h1.format = NORMAL ∧
      h1.registers.length = spreadState.m1 ∧
      (∀ i, i < spreadState.m1 →
        h1.registers.getD i 0 =
          maxRankAt spreadState.P i
            (spreadState.sparseList.Merge spreadState.tempSet).1.Data) ∧
      h1.registers = List.replicate 8 21 ++ List.replicate 8 60 ∧
      maxRankAt spreadState.P 0 (spreadState.sparseList.Merge spreadState.tempSet).1.Data = 21 ∧
      maxRankAt spreadState.P 8 (spreadState.sparseList.Merge spreadState.tempSet).1.Data = 60 := by
  have hf : spreadState.format = SPARSE := by decide
  obtain ⟨h1, htn⟩ := (toNormal_registers spreadState hf).2 spreadState_reachable.inv
  have hres := (toNormal_registers spreadState hf).1 h1 htn
  have hregs : (toNormal spreadState).map (fun g => g.registers) =
      some (List.replicate 8 21 ++ List.replicate 8 60) := by decide
  rw [htn] at hregs
  exact ⟨hf, by decide, by decide, h1, htn, hres.1, hres.2.1, hres.2.2,
    Option.some.inj hregs, by decide, by decide⟩

end PromotionResult


/-! ## The sparse estimate -/

section SparseEstimate

variable {F : Type}

open SparseList

variable [LinearOrderedField F]

/-- C17: in a reachable `SPARSE` state `Cardinality` returns
`LinearCounting(m2, m2 - len) = m2 * ln(m2 / (m2 - len))` with `m2 = 2^25`,
where `len` is the number of entries of the sparse container after the merge of
the write buffer into it, which is the number of distinct bucket indices of
the container and the buffer. -/
theorem sparse_estimate (env : NumEnv F) (h : HLL F) (hr : Reachable env h)
    (hf : h.format = SPARSE) :
    (Cardinality env h).1 =
      LinearCounting env.log (2 ^ 25)
        (((2 ^ 25 : Nat) : Int) - (((h.sparseList.Merge h.tempSet).1.Len : Nat) : Int)) ∧
    (Cardinality env h).1 =
      (2 ^ 25 : F) * env.log ((2 ^ 25 : F) /
        ((2 ^ 25 : F) - (((h.sparseList.Merge h.tempSet).1.Len : Nat) : F))) ∧
    (Cardinality env h).2.sparseList.Len = (h.sparseList.Merge h.tempSet).1.Len ∧
    (h.sparseList.Merge h.tempSet).1.Len =
      distinctIndices (h.sparseList.Data ++ h.tempSet.Data) := by
  have hinv := hr.inv
  have ht : toInt (2 ^ 25) = ((2 ^ 25 : Nat) : Int) := by decide
  have hcard : (Cardinality env h).1 =
      LinearCounting env.log (2 ^ 25)
        (((2 ^ 25 : Nat) : Int) - (((h.sparseList.Merge h.tempSet).1.Len : Nat) : Int)) := by
    rw [Cardinality_sparse env hf, hinv.m2_eq, ht]
    rfl
  refine ⟨hcard, ?_, ?_, merge_length hr.sorted⟩
  · rw [hcard]
    unfold LinearCounting
    push_cast
    norm_num
  · rw [Cardinality_state, if_pos hf]

theorem dupState_reachable : Reachable exampleEnv dupState :=
  Reachable.run dupCalls
    (Reachable.setHasher _ (fun s => s.length * 2 ^ 39)
      (Reachable.init (fun _ => []) 4 200 _
        (NewHLL_eq (fun _ => []) 4 200 (by decide) (by decide))))
    (eq_some_getD overflowStart (by decide))

/-- Witness of C17 on a sparse estimator with two entries in its container and
four in its write buffer, of three buckets in all: `len` is 3. -/
theorem sparse_estimate_witness :
    Reachable exampleEnv dupState ∧ dupState.format = SPARSE ∧
    dupState.sparseList.Len = 2 ∧ dupState.tempSet.Len = 4 ∧
    (dupState.sparseList.Merge dupState.tempSet).1.Len = 3 ∧
    distinctIndices (dupState.sparseList.Data ++ dupState.tempSet.Data) = 3 ∧
    (Cardinality exampleEnv dupState).1 =
      LinearCounting exampleEnv.log (2 ^ 25) (((2 ^ 25 : Nat) : Int) - ((3 : Nat) : Int)) ∧
    (Cardinality exampleEnv dupState).1 =
      (2 ^ 25 : ℚ) * exampleEnv.log ((2 ^ 25 : ℚ) / ((2 ^ 25 : ℚ) - ((3 : Nat) : ℚ))) ∧
    (Cardinality exampleEnv dupState).2.sparseList.Len = 3 := by
  have hf : dupState.format = SPARSE := by decide
  have hlen : (dupState.sparseList.Merge dupState.tempSet).1.Len = 3 := by decide
  have hthm := sparse_estimate exampleEnv dupState dupState_reachable hf
  rw [hlen] at hthm
  exact ⟨dupState_reachable, hf, by decide, by decide, hlen, hthm.2.2.2.symm, hthm.1,
    hthm.2.1, hthm.2.2.1⟩

end SparseEstimate


end Gohll
